import Mathlib

/-!
Verification development for the code-documentator repository
(src/app.py and src/appStructure.py).

The tool walks a project directory tree and renders a document with a
directory-structure listing, numbered file contents, and a summary
(directory count, file count, per-extension frequency table).

Modelling conventions used throughout this file:

* Strings are modelled at the `List Char` level where Python string
  primitives (`str.splitlines`, `os.path.splitext`, `os.path.normpath`,
  `str.split`, `str.lower`, decimal formatting) have to be re-implemented;
  all such re-implementations follow the CPython (posixpath) semantics and
  assume the POSIX path separator, and `str.lower` is modelled on its
  ASCII fragment (all extension constants in the program are ASCII).
* Filesystem paths inside a traversal are modelled as lists of path
  components (`List String`); joining with `os.path.join` appends one
  component, and for such component lists `os.path.normpath` followed by
  `split(os.sep)` is the identity, so the component-level filter
  `should_include` checks the components directly.  A separate
  string-level embedding `should_include_string` (including a full model
  of `os.path.normpath`) is given for comparing the two filter
  implementations of app.py and appStructure.py on raw path strings.
* The filesystem itself is a finite tree (`FSTree`); `os.path.isfile` is
  answered by tree position (directory vs file node), and reading a file
  either yields its text or raises, which is modelled by an
  `Except String String` stored at the file node.
-/

/-! ### Python `str.splitlines` (app.py line 106: `content.splitlines()`) -/

/-- Characters treated as line boundaries by Python `str.splitlines`. -/
def isLineBreak (c : Char) : Bool :=
  c = '\n' || c = '\r' || c = '\x0b' || c = '\x0c' || c = '\x1c' ||
  c = '\x1d' || c = '\x1e' || c = '\x85' || c = '\u2028' || c = '\u2029'

/-- Accumulator-passing worker for `str.splitlines`: `acc` is the current
(unfinished) line, and `lastCR` records whether the previous character was
a carriage return, so that `\r\n` counts as a single break; a trailing
unfinished line is emitted only if nonempty. -/
def splitlinesGo : List Char → List Char → Bool → List (List Char)
  | [], acc, _ => if acc = [] then [] else [acc]
  | c :: rest, acc, lastCR =>
    if c = '\n' then
      if lastCR then splitlinesGo rest [] false
      else acc :: splitlinesGo rest [] false
    else if isLineBreak c then acc :: splitlinesGo rest [] (c = '\r')
    else splitlinesGo rest (acc ++ [c]) false

/-- Python `str.splitlines` on a character list. -/
def pySplitlines (s : List Char) : List (List Char) :=
  splitlinesGo s [] false

/-! ### Python decimal formatting (app.py line 107: the f-string `{i+1:4d}`) -/

/-- Decimal digits of `n`, most significant first; `fuel` bounds the
recursion and is always passed as at least the number of digits. -/
def natDecimalAux : Nat → Nat → List Char
  | 0, _ => []
  | fuel + 1, n =>
    if n < 10 then [Nat.digitChar n]
    else natDecimalAux fuel (n / 10) ++ [Nat.digitChar (n % 10)]

/-- Decimal representation of a natural number (Python `str(n)` for `n ≥ 0`). -/
def natDecimal (n : Nat) : List Char :=
  natDecimalAux (n + 1) n

/-- Python format spec `{n:4d}`: the decimal digits of `n`, right-aligned by
padding with spaces to a minimum field width of 4. -/
def pyFormat4d (n : Nat) : List Char :=
  List.replicate (4 - (natDecimal n).length) ' ' ++ natDecimal n

/-! ### Python `str.lower`, `str.split`, `os.path.splitext`, `os.path.normpath` -/

/-- Python `str.lower`, restricted to its ASCII behaviour (`A`-`Z` map to
`a`-`z`); every extension constant compared against is ASCII. -/
def pyToLower (s : List Char) : List Char :=
  s.map Char.toLower

/-- Python `str.split(sep)` for a one-character separator: keeps empty
pieces, and the empty string splits to one empty piece. -/
def splitOnChar (sep : Char) : List Char → List (List Char)
  | [] => [[]]
  | c :: rest =>
    if c = sep then [] :: splitOnChar sep rest
    else
      match splitOnChar sep rest with
      | piece :: pieces => (c :: piece) :: pieces
      | [] => [[c]]

/-- The part of a path after its last `/` (the basename of a POSIX path;
for a separator-free string, the string itself). -/
def afterLastSep (s : List Char) : List Char :=
  (splitOnChar '/' s).getLastD []

/-- Index of the last `.` in a character list, if any. -/
def lastDotIdx (s : List Char) : Option Nat :=
  match s.reverse.findIdx? (fun c => c = '.') with
  | none => none
  | some j => some (s.length - 1 - j)

/-- The extension component `os.path.splitext(path)[1]` of a POSIX path:
everything from the last dot of the basename on, unless every character of
the basename before that dot is itself a dot (so `.bashrc` has no
extension). -/
def pySplitextExt (path : List Char) : List Char :=
  let base := afterLastSep path
  match lastDotIdx base with
  | none => []
  | some i => if (base.take i).all (fun c => c = '.') then [] else base.drop i

/-- One step of the component loop inside `posixpath.normpath`: skip empty
and `.` components, append ordinary components, and let `..` pop the last
kept component unless there is nothing to pop (or only `..`s were kept, or
the path is relative and nothing was kept yet). -/
def normpathStep (initSlash : Bool) (acc : List (List Char)) (comp : List Char) :
    List (List Char) :=
  if comp = [] ∨ comp = ['.'] then acc
  else if comp ≠ ['.', '.'] ∨ (¬initSlash ∧ acc = []) ∨
      (acc ≠ [] ∧ acc.getLast? = some ['.', '.']) then acc ++ [comp]
  else if acc ≠ [] then acc.dropLast
  else acc

/-- Python `posixpath.normpath`: collapse repeated separators and resolve
`.` and `..` components textually; the empty path normalises to `.`, and
exactly two leading slashes are preserved. -/
def pyNormpath (s : List Char) : List Char :=
  if s = [] then ['.']
  else
    let initialSlashes : Nat :=
      if s.take 1 = ['/'] then
        if s.take 2 = ['/', '/'] ∧ s.take 3 ≠ ['/', '/', '/'] then 2 else 1
      else 0
    let comps := splitOnChar '/' s
    let newComps := comps.foldl (normpathStep (initialSlashes > 0)) []
    let joined := List.replicate initialSlashes '/' ++ List.intercalate ['/'] newComps
    if joined = [] then ['.'] else joined

/-! ### Configuration constants (app.py lines 22-23, appStructure.py lines 11-12) -/

/-- Allowed file extensions of app.py (line 22). -/
def VALID_EXTENSIONS : List String :=
  [".js", ".ts", ".json", ".html", ".css", ".jsx", ".vue", ".scss", ".md", ".geojson"]

/-- Excluded directory names (app.py line 23 and appStructure.py line 12). -/
def EXCLUDE_DIRS : List String :=
  ["node_modules", ".git", "dist", "build", "coverage"]

namespace appStructure

/-- Allowed file extensions of appStructure.py (line 11). -/
def VALID_EXTENSIONS : List String :=
  [".js", ".ts", ".json", ".html", ".css", ".jsx", ".vue", ".scss", ".md"]

end appStructure

/-! ### The path filter `should_include`

app.py lines 88-100.  The component-level version takes the already-split
path (for the paths `os.path.join` builds during a traversal,
`os.path.normpath(path).split(os.sep)` returns exactly these components)
together with the answer `os.path.isfile(path)` would give, which inside a
traversal is determined by whether the entry is a file or a directory
node. -/

/-- The lower-cased extension of a file name,
`os.path.splitext(name)[1].lower()` (app.py lines 99 and 203). -/
def extOfName (name : String) : String :=
  String.mk (pyToLower (pySplitextExt name.data))

/-- The extension test of app.py line 99 applied to the last path
component: `os.path.splitext(path)[1].lower() in VALID_EXTENSIONS`. -/
def extAllowed (exts : List String) (name : String) : Bool :=
  exts.contains (extOfName name)

/-- Component-level `should_include` of app.py lines 88-100: reject when
any path component equals an excluded directory name; otherwise a file is
included exactly when its lower-cased extension is allowed, and a non-file
is included unconditionally. -/
def should_include (isFile : Bool) (parts : List String) : Bool :=
  if parts.any (fun part => EXCLUDE_DIRS.contains part) then false
  else if isFile then extAllowed VALID_EXTENSIONS (parts.getLastD "")
  else true

/-- String-level `should_include` of app.py lines 88-100, including the
`os.path.normpath` call of line 91; `isFile` stands for the
`os.path.isfile(path)` answer of line 98. -/
def should_include_string (isFile : Bool) (path : List Char) : Bool :=
  let path_parts := splitOnChar '/' (pyNormpath path)
  if path_parts.any (fun part => EXCLUDE_DIRS.contains (String.mk part)) then false
  else if isFile then
    VALID_EXTENSIONS.contains (String.mk (pyToLower (pySplitextExt path)))
  else true

namespace appStructure

/-- String-level `should_include` of appStructure.py lines 60-67: the raw
path is split on the separator without normalisation, and the smaller
extension list of appStructure.py line 11 is used. -/
def should_include_string (isFile : Bool) (path : List Char) : Bool :=
  let path_parts := splitOnChar '/' path
  if EXCLUDE_DIRS.any (fun excl => path_parts.contains excl.data) then false
  else if isFile then
    appStructure.VALID_EXTENSIONS.contains (String.mk (pyToLower (pySplitextExt path)))
  else true

end appStructure

/-! ### `format_code` (app.py lines 102-108) -/

/-- The numbering loop of app.py lines 106-107: line `i` of the content
(`i` starting at 1) becomes `f"{i:4d} | {line}"`. -/
def numberLines (i : Nat) : List (List Char) → List (List Char)
  | [] => []
  | line :: rest => (pyFormat4d i ++ [' ', '|', ' '] ++ line) :: numberLines (i + 1) rest

/-- app.py `format_code`: number every line of `content` starting at 1 and
join the numbered lines with `"\n"`; the `filename` argument is unused in
the source as well. -/
def format_code (content : String) (_filename : String) : String :=
  String.mk (List.intercalate ['\n'] (numberLines 1 (pySplitlines content.data)))

-- sanity checks of the string primitives against CPython behaviour
example : pySplitlines "ab\ncd".data = ["ab".data, "cd".data] := by decide
example : pySplitlines "ab\r\ncd\n".data = ["ab".data, "cd".data] := by decide
example : pySplitlines "\n\n".data = [[], []] := by decide
example : pySplitlines "".data = [] := by decide
example : pySplitextExt "a.tar.gz".data = ".gz".data := by decide
example : pySplitextExt ".bashrc".data = [] := by decide
example : pySplitextExt "a.".data = ".".data := by decide
example : pySplitextExt "dir.d/file".data = [] := by decide
example : pySplitextExt "noext".data = [] := by decide
example : pyNormpath "a/node_modules/../b.js".data = "a/b.js".data := by decide
example : pyNormpath "a//b/./c".data = "a/b/c".data := by decide
example : pyNormpath "".data = ".".data := by decide
example : pyNormpath "/a/../../b".data = "/b".data := by decide
example : pyFormat4d 7 = "   7".data := by decide
example : pyFormat4d 12345 = "12345".data := by decide
example : format_code "ab\ncd" "f" = "   1 | ab\n   2 | cd" := by decide
example : should_include true ["src", "a.JS"] = true := by decide
example : should_include true ["src", "node_modules", "a.js"] = false := by decide
example : should_include true ["src", "a.txt"] = false := by decide
example : should_include false ["src", "assets"] = true := by decide
example : should_include_string true "src/a.js".data = true := by decide
example : should_include_string true "a/node_modules/../b.js".data = true := by decide
example : appStructure.should_include_string true "a/node_modules/../b.js".data = false := by
  decide

/-! ### The filesystem model

A directory is a node carrying its name, its immediate subdirectories and
its immediate files; reading a file yields its text or the message of the
exception raised (`Except.error`), modelling the `try`/`except` of app.py
lines 159-163. -/

/-- A non-directory entry of a directory, as listed by `os.walk` in its
`files` component: its name, whether `os.path.isfile` answers true for it
(`false` models an entry such as a dangling symbolic link, which `os.walk`
lists among the files but which is not a regular file), and the outcome of
reading it as UTF-8 text. -/
structure FSFile where
  name : String
  isFile : Bool
  readResult : Except String String

/-- A directory tree. -/
inductive FSTree where
  | node (name : String) (dirs : List FSTree) (files : List FSFile)

/-- Name of a directory node. -/
def FSTree.name : FSTree → String
  | .node n _ _ => n

/-- Immediate subdirectories of a directory node. -/
def FSTree.dirs : FSTree → List FSTree
  | .node _ ds _ => ds

/-- Immediate files of a directory node. -/
def FSTree.files : FSTree → List FSFile
  | .node _ _ fs => fs

theorem sizeOf_filter_le {α : Type} [SizeOf α] (p : α → Bool) (l : List α) :
    sizeOf (l.filter p) ≤ sizeOf l := by
  induction l with
  | nil => simp
  | cons a as ih =>
    simp only [List.filter_cons]
    split
    · simp only [List.cons.sizeOf_spec]
      omega
    · simp only [List.cons.sizeOf_spec]
      omega

/-- The subdirectory pruning of app.py lines 120, 152 and 191:
`dirs[:] = [d for d in dirs if should_include(os.path.join(root, d))]`. -/
def keptDirs (ps : List String) (dirs : List FSTree) : List FSTree :=
  dirs.filter (fun d => should_include false (ps ++ [d.name]))

/-- The file filtering of app.py lines 122, 153 and 202:
`[f for f in files if should_include(os.path.join(root, f))]`. -/
def keptFiles (ps : List String) (files : List FSFile) : List FSFile :=
  files.filter (fun f => should_include f.isFile (ps ++ [f.name]))

theorem sizeOf_keptDirs_lt {ps : List String} {n : String} {dirs : List FSTree}
    {files : List FSFile} : sizeOf (keptDirs ps dirs) < sizeOf (FSTree.node n dirs files) := by
  have := sizeOf_filter_le (fun d => should_include false (ps ++ [d.name])) dirs
  simp only [FSTree.node.sizeOf_spec]
  unfold keptDirs
  omega

theorem sizeOf_dirs_lt_node {n : String} {dirs : List FSTree} {files : List FSFile} :
    sizeOf dirs < sizeOf (FSTree.node n dirs files) := by
  simp only [FSTree.node.sizeOf_spec]
  omega

theorem sizeOf_head_lt_cons {α : Type} [SizeOf α] {d : α} {ds : List α} :
    sizeOf d < sizeOf (d :: ds) := by
  simp only [List.cons.sizeOf_spec]
  omega

theorem sizeOf_tail_lt_cons {α : Type} [SizeOf α] {d : α} {ds : List α} :
    sizeOf ds < sizeOf (d :: ds) := by
  simp only [List.cons.sizeOf_spec]
  omega

/-! ### Lexicographic string order (Python string comparison)

Python compares strings lexicographically by code point; `sorted(files)`
in app.py line 155 and `sorted(ext_counts.items())` in line 207 use it. -/

/-- Lexicographic less-or-equal on character lists by code point. -/
def lexLe : List Char → List Char → Bool
  | [], _ => true
  | _ :: _, [] => false
  | a :: as, b :: bs => if a < b then true else if a = b then lexLe as bs else false

/-- Comparison of file entries by name, the key order of `sorted(files)`. -/
def fileLe (a b : FSFile) : Prop := lexLe a.name.data b.name.data = true

instance : DecidableRel fileLe := fun a b => instDecidableEqBool _ _

/-- Comparison of tally entries by extension string, the key order of
`sorted(ext_counts.items())` (the keys of the tally are pairwise distinct,
so tuple comparison is decided by the first component). -/
def pairLe (a b : String × Nat) : Prop := lexLe a.1.data b.1.data = true

instance : DecidableRel pairLe := fun a b => instDecidableEqBool _ _

/-! ### The structure pass (app.py lines 110-143, `generate_directory_structure`) -/

/-- One rendered item of the structure section: the section header, an
indented directory label (`indent + basename + "/"`, line 136), or an
indented file label (line 141).  `level` is the indentation depth
(`' ' * 4 * level`). -/
inductive StructItem where
  | header (text : String)
  | dirItem (level : Nat) (display : String)
  | fileItem (level : Nat) (name : String)

mutual
/-- The `os.walk` loop of app.py lines 118-141 at the directory reached by
components `ps` (with `rootParts` the components of `startpath`): emit this
directory's label, then one label per surviving file, then recurse into
the surviving subdirectories.  The level `ps.length - rootParts.length`
models `root.replace(startpath, '').count(os.sep)` (line 125) and the
display name models lines 129-133, where the basename of the walked path
is the last component of `ps`. -/
def structureWalkT (rootParts ps : List String) : FSTree → List StructItem
  | .node _ dirs files =>
    StructItem.dirItem (ps.length - rootParts.length)
        ((if ps = rootParts then rootParts.getLastD "" else ps.getLastD "") ++ "/") ::
      ((keptFiles ps files).map
        (fun f => StructItem.fileItem (ps.length - rootParts.length + 1) f.name) ++
        structureWalkF rootParts ps (keptDirs ps dirs))
termination_by t => sizeOf t
decreasing_by exact sizeOf_keptDirs_lt

/-- Continuation of the walk over a list of (already filtered)
subdirectories, in list order, depth first. -/
def structureWalkF (rootParts ps : List String) : List FSTree → List StructItem
  | [] => []
  | d :: ds => structureWalkT rootParts (ps ++ [d.name]) d ++ structureWalkF rootParts ps ds
termination_by ds => sizeOf ds
decreasing_by
  · exact sizeOf_head_lt_cons
  · exact sizeOf_tail_lt_cons
end

/-- app.py `generate_directory_structure`: the header paragraph followed by
the walk of the whole tree (the `Paragraph`/style plumbing is left to the
external layout library and only the rendered text structure is kept). -/
def generate_directory_structure (rootParts : List String) (t : FSTree) : List StructItem :=
  StructItem.header "Project Directory Structure" :: structureWalkT rootParts rootParts t

mutual
/-- The full paths (as component lists) of exactly those files that receive
a `StructItem.fileItem` label in `structureWalkT`: same traversal, same
filters, recorded as paths for stating which files appear in the structure
section. -/
def structureFilePathsT (ps : List String) : FSTree → List (List String)
  | .node _ dirs files =>
    (keptFiles ps files).map (fun f => ps ++ [f.name]) ++
      structureFilePathsF ps (keptDirs ps dirs)
termination_by t => sizeOf t
decreasing_by exact sizeOf_keptDirs_lt

/-- List-level companion of `structureFilePathsT`. -/
def structureFilePathsF (ps : List String) : List FSTree → List (List String)
  | [] => []
  | d :: ds => structureFilePathsT (ps ++ [d.name]) d ++ structureFilePathsF ps ds
termination_by ds => sizeOf ds
decreasing_by
  · exact sizeOf_head_lt_cons
  · exact sizeOf_tail_lt_cons
end

/-! ### The content pass (app.py lines 145-174, `generate_file_contents`) -/

/-- One rendered content block: the `PageBreak` + `Paragraph("File: " +
rel_path)` + `Preformatted(format_code(content), ...)` triple emitted per
file in app.py lines 167-172, kept as the relative path (components of
`os.path.relpath(file_path, root_dir)`) and the formatted code text. -/
structure ContentBlock where
  relPath : List String
  code : String

/-- The `try`/`except` of app.py lines 159-163: the file's text on success,
the placeholder `f"Error reading file: {str(e)}"` on any failure. -/
def readContent (f : FSFile) : String :=
  match f.readResult with
  | .ok content => content
  | .error e => "Error reading file: " ++ e

/-- The inner loop of app.py lines 155-172 over one directory's surviving
files, sorted by name (`for filename in sorted(files)`); each file yields
one block whose relative path drops the root components. -/
def contentFileBlocks (rootParts ps : List String) (files : List FSFile) : List ContentBlock :=
  (List.insertionSort fileLe (keptFiles ps files)).map
    (fun f =>
      { relPath := (ps ++ [f.name]).drop rootParts.length
        code := format_code (readContent f) f.name })

mutual
/-- The pruned `os.walk` of app.py lines 150-172: this directory's file
blocks, then the blocks of the surviving subdirectories. -/
def contentsWalkT (rootParts ps : List String) : FSTree → List ContentBlock
  | .node _ dirs files =>
    contentFileBlocks rootParts ps files ++ contentsWalkF rootParts ps (keptDirs ps dirs)
termination_by t => sizeOf t
decreasing_by exact sizeOf_keptDirs_lt

/-- List-level companion of `contentsWalkT`. -/
def contentsWalkF (rootParts ps : List String) : List FSTree → List ContentBlock
  | [] => []
  | d :: ds => contentsWalkT rootParts (ps ++ [d.name]) d ++ contentsWalkF rootParts ps ds
termination_by ds => sizeOf ds
decreasing_by
  · exact sizeOf_head_lt_cons
  · exact sizeOf_tail_lt_cons
end

/-- app.py `generate_file_contents`: the blocks of the pruned walk together
with `file_count`; the source increments `file_count` exactly once per
emitted block (line 165), so the final count is the number of blocks. -/
def generate_file_contents (rootParts : List String) (t : FSTree) : List ContentBlock × Nat :=
  let blocks := contentsWalkT rootParts rootParts t
  (blocks, blocks.length)

/-! ### The summary pass (app.py lines 176-223, `generate_project_summary`) -/

mutual
/-- The directory-counting walk of app.py lines 189-192: a pruned walk that
adds 1 per visited directory. -/
def dirCountWalkT (ps : List String) : FSTree → Nat
  | .node _ dirs _ => 1 + dirCountWalkF ps (keptDirs ps dirs)
termination_by t => sizeOf t
decreasing_by exact sizeOf_keptDirs_lt

/-- List-level companion of `dirCountWalkT`. -/
def dirCountWalkF (ps : List String) : List FSTree → Nat
  | [] => 0
  | d :: ds => dirCountWalkT (ps ++ [d.name]) d + dirCountWalkF ps ds
termination_by ds => sizeOf ds
decreasing_by
  · exact sizeOf_head_lt_cons
  · exact sizeOf_tail_lt_cons
end

mutual
/-- The extension-tally walk of app.py lines 200-204: `os.walk` WITHOUT
directory pruning (the loop discards the `dirs` component), keeping the
full path of every file that passes `should_include`. -/
def extTallyFilesT (ps : List String) : FSTree → List (List String)
  | .node _ dirs files =>
    (keptFiles ps files).map (fun f => ps ++ [f.name]) ++ extTallyFilesF ps dirs
termination_by t => sizeOf t
decreasing_by exact sizeOf_dirs_lt_node

/-- List-level companion of `extTallyFilesT` (over ALL subdirectories). -/
def extTallyFilesF (ps : List String) : List FSTree → List (List String)
  | [] => []
  | d :: ds => extTallyFilesT (ps ++ [d.name]) d ++ extTallyFilesF ps ds
termination_by ds => sizeOf ds
decreasing_by
  · exact sizeOf_head_lt_cons
  · exact sizeOf_tail_lt_cons
end

/-- One step of the dict accumulation `ext_counts[ext] = ext_counts.get(ext, 0) + 1`
(app.py line 204) on an insertion-ordered association list, which is how a
Python dict iterates. -/
def tallyInsert (acc : List (String × Nat)) (e : String) : List (String × Nat) :=
  if acc.any (fun p => p.1 = e) then
    acc.map (fun p => if p.1 = e then (p.1, p.2 + 1) else p)
  else acc ++ [(e, 1)]

/-- The extension frequency dict of app.py lines 199-204. -/
def ext_counts (rootParts : List String) (t : FSTree) : List (String × Nat) :=
  ((extTallyFilesT rootParts t).map (fun p => extOfName (p.getLastD ""))).foldl tallyInsert []

/-- The table rows of app.py lines 206-208: a header row, then one row per
extension in ascending key order (`sorted(ext_counts.items())` compares
tuples, and the keys are pairwise distinct, so the key decides), with the
empty extension displayed as `No Extension` and the count rendered in
decimal. -/
def file_type_data (rootParts : List String) (t : FSTree) : List (String × String) :=
  ("File Type", "Count") ::
    (List.insertionSort pairLe (ext_counts rootParts t)).map
      (fun p => ((if p.1 = "" then "No Extension" else p.1), String.mk (natDecimal p.2)))

/-- The data of the summary section: total directory count, the
`file_count` passed in from the content pass (app.py line 195), and the
file-type table. -/
structure ProjectSummary where
  dir_count : Nat
  total_files : Nat
  file_type_rows : List (String × String)

/-- app.py `generate_project_summary` (header, absolute-path and timestamp
paragraphs are presentation only and omitted). -/
def generate_project_summary (rootParts : List String) (t : FSTree) (file_count : Nat) :
    ProjectSummary :=
  { dir_count := dirCountWalkT rootParts t
    total_files := file_count
    file_type_rows := file_type_data rootParts t }

/-! ### Well-formed trees and file lookup -/

/-- Whether a list of names is duplicate-free. -/
def distinctb : List String → Bool
  | [] => true
  | x :: xs => !(xs.contains x) && distinctb xs

mutual
/-- A tree is well-formed when, in every directory, the subdirectory and
file names are pairwise distinct (as on a real filesystem). -/
def FSTree.wfb : FSTree → Bool
  | .node _ dirs files =>
    distinctb (dirs.map FSTree.name ++ files.map FSFile.name) && FSTree.wfbF dirs
termination_by t => sizeOf t
decreasing_by exact sizeOf_dirs_lt_node

/-- List-level companion of `FSTree.wfb`. -/
def FSTree.wfbF : List FSTree → Bool
  | [] => true
  | d :: ds => d.wfb && FSTree.wfbF ds
termination_by ds => sizeOf ds
decreasing_by
  · exact sizeOf_head_lt_cons
  · exact sizeOf_tail_lt_cons
end

/-- Follow a chain of subdirectory names from a node. -/
def FSTree.findDir : FSTree → List String → Option FSTree
  | t, [] => some t
  | t, n :: rest =>
    match t.dirs.find? (fun d => d.name = n) with
    | some d => d.findDir rest
    | none => none

-- sanity check of the walks on a small concrete tree
example :
    generate_file_contents ["r"]
        (.node "r"
          [.node "src" [] [⟨"b.js", true, .ok "x"⟩, ⟨"a.js", true, .ok "y\nz"⟩],
            .node "node_modules" [] [⟨"c.js", true, .ok "w"⟩]]
          [⟨"README.md", true, .ok "hi"⟩, ⟨"img.png", true, .ok "p"⟩]) =
      ([⟨["README.md"], "   1 | hi"⟩,
        ⟨["src", "a.js"], "   1 | y\n   2 | z"⟩,
        ⟨["src", "b.js"], "   1 | x"⟩], 3) := by
  simp [generate_file_contents, contentsWalkT, contentsWalkF, contentFileBlocks,
    keptFiles, keptDirs, should_include, extAllowed, extOfName, format_code,
    readContent, List.insertionSort, List.orderedInsert, fileLe, lexLe,
    EXCLUDE_DIRS, VALID_EXTENSIONS, pySplitlines, splitlinesGo, isLineBreak,
    numberLines, pyFormat4d, natDecimal, natDecimalAux, pyToLower, pySplitextExt,
    afterLastSep, lastDotIdx, splitOnChar, List.intercalate, Nat.digitChar,
    List.filter_cons, List.filter_nil, FSTree.name]

/-! ### Lemmas about `splitlines`, decimal formatting and `format_code` -/

theorem splitlinesGo_append_free :
    ∀ (part rest acc : List Char), (∀ c ∈ part, isLineBreak c = false) →
      splitlinesGo (part ++ rest) acc false = splitlinesGo rest (acc ++ part) false
  | [], _, acc, _ => by simp
  | c :: cs, rest, acc, h => by
    have hc : isLineBreak c = false := h c (by simp)
    have hcn : ¬ c = '\n' := by
      intro hh
      rw [hh] at hc
      simp [isLineBreak] at hc
    rw [List.cons_append, splitlinesGo, if_neg hcn, if_neg (by simp [hc]),
      splitlinesGo_append_free cs rest (acc ++ [c]) (fun x hx => h x (by simp [hx]))]
    simp

theorem intercalate_singleton_eq {α : Type} (sep : List α) (a : List α) :
    List.intercalate sep [a] = a := by
  simp [List.intercalate, List.intersperse]

theorem intercalate_cons_cons_eq {α : Type} (sep a b : List α) (t : List (List α)) :
    List.intercalate sep (a :: b :: t) = a ++ sep ++ List.intercalate sep (b :: t) := by
  simp [List.intercalate, List.intersperse, List.append_assoc]

theorem splitlinesGo_intercalate :
    ∀ (parts : List (List Char)), parts ≠ [] →
      (∀ p ∈ parts, p ≠ [] ∧ ∀ c ∈ p, isLineBreak c = false) →
      splitlinesGo (List.intercalate ['\n'] parts) [] false = parts
  | [], hne, _ => absurd rfl hne
  | [p], _, h => by
    have hp := h p (by simp)
    rw [intercalate_singleton_eq]
    have hgo := splitlinesGo_append_free p [] [] hp.2
    simp only [List.append_nil, List.nil_append] at hgo
    rw [hgo, splitlinesGo, if_neg hp.1]
  | p :: q :: t, _, h => by
    have hp := h p (by simp)
    rw [intercalate_cons_cons_eq, List.append_assoc,
      splitlinesGo_append_free p _ [] hp.2]
    simp only [List.nil_append, List.cons_append]
    rw [splitlinesGo]
    rw [splitlinesGo_intercalate (q :: t) (by simp) (fun x hx => h x (by simp [hx]))]
    simp

theorem splitlinesGo_lines_free :
    ∀ (s acc : List Char) (flag : Bool), (∀ c ∈ acc, isLineBreak c = false) →
      ∀ l ∈ splitlinesGo s acc flag, ∀ c ∈ l, isLineBreak c = false
  | [], acc, flag, h => by
    intro l hl
    rw [splitlinesGo] at hl
    by_cases hacc : acc = []
    · simp [hacc] at hl
    · simp only [if_neg hacc, List.mem_singleton] at hl
      subst hl
      exact h
  | c :: rest, acc, flag, h => by
    intro l hl
    rw [splitlinesGo] at hl
    by_cases hc : c = '\n'
    · rw [if_pos hc] at hl
      by_cases hf : flag = true
      · rw [if_pos hf] at hl
        exact splitlinesGo_lines_free rest [] false (by simp) l hl
      · rw [if_neg hf] at hl
        rcases List.mem_cons.1 hl with rfl | hl2
        · exact h
        · exact splitlinesGo_lines_free rest [] false (by simp) l hl2
    · rw [if_neg hc] at hl
      by_cases hb : isLineBreak c
      · rw [if_pos hb] at hl
        rcases List.mem_cons.1 hl with rfl | hl2
        · exact h
        · exact splitlinesGo_lines_free rest [] (c = '\r') (by simp) l hl2
      · rw [if_neg hb] at hl
        refine splitlinesGo_lines_free rest (acc ++ [c]) false ?_ l hl
        intro x hx
        rcases List.mem_append.1 hx with hx1 | hx2
        · exact h x hx1
        · rw [List.mem_singleton.1 hx2]
          simpa using hb

theorem natDecimalAux_digits :
    ∀ (fuel n : Nat), ∀ c ∈ natDecimalAux fuel n, ∃ d, d < 10 ∧ c = Nat.digitChar d := by
  intro fuel
  induction fuel with
  | zero => intro n c hc; simp [natDecimalAux] at hc
  | succ fuel ih =>
    intro n c hc
    rw [natDecimalAux] at hc
    split at hc
    · next hlt =>
      rw [List.mem_singleton] at hc
      exact ⟨n, hlt, hc⟩
    · rcases List.mem_append.1 hc with h1 | h2
      · exact ih (n / 10) c h1
      · rw [List.mem_singleton] at h2
        exact ⟨n % 10, Nat.mod_lt _ (by omega), h2⟩

theorem digitChar_not_break : ∀ d, d < 10 → isLineBreak (Nat.digitChar d) = false := by decide

theorem pyFormat4d_free (n : Nat) : ∀ c ∈ pyFormat4d n, isLineBreak c = false := by
  intro c hc
  rcases List.mem_append.1 hc with h1 | h2
  · rw [List.eq_of_mem_replicate h1]
    decide
  · obtain ⟨d, hd, rfl⟩ := natDecimalAux_digits (n + 1) n c h2
    exact digitChar_not_break d hd

theorem natDecimal_ne_nil (n : Nat) : natDecimal n ≠ [] := by
  unfold natDecimal natDecimalAux
  split <;> simp

theorem pyFormat4d_ne_nil (n : Nat) : pyFormat4d n ≠ [] := by
  unfold pyFormat4d
  intro h
  rcases List.append_eq_nil.1 h with ⟨_, h2⟩
  exact natDecimal_ne_nil n h2

theorem numberLines_length : ∀ (i : Nat) (ls : List (List Char)),
    (numberLines i ls).length = ls.length
  | _, [] => rfl
  | i, _ :: rest => by
    rw [numberLines, List.length_cons, List.length_cons, numberLines_length (i + 1) rest]

theorem numberLines_free :
    ∀ (i : Nat) (ls : List (List Char)), (∀ p ∈ ls, ∀ c ∈ p, isLineBreak c = false) →
      ∀ q ∈ numberLines i ls, q ≠ [] ∧ ∀ c ∈ q, isLineBreak c = false
  | _, [], _ => by intro q hq; simp [numberLines] at hq
  | i, p :: rest, h => by
    intro q hq
    rw [numberLines] at hq
    rcases List.mem_cons.1 hq with rfl | h2
    · constructor
      · intro hq
        rcases List.append_eq_nil.1 hq with ⟨h3, _⟩
        rcases List.append_eq_nil.1 h3 with ⟨h4, _⟩
        exact pyFormat4d_ne_nil i h4
      · intro c hc
        rcases List.mem_append.1 hc with h3 | h4
        · rcases List.mem_append.1 h3 with h5 | h6
          · exact pyFormat4d_free i c h5
          · simp only [List.mem_cons, List.not_mem_nil, or_false] at h6
            rcases h6 with rfl | rfl | rfl <;> decide
        · exact h p (by simp) c h4
    · exact numberLines_free (i + 1) rest (fun x hx => h x (by simp [hx])) q h2

theorem numberLines_get :
    ∀ (ls : List (List Char)) (i k : Nat) (h : k < ls.length),
      (numberLines i ls).get ⟨k, by rw [numberLines_length]; exact h⟩ =
        pyFormat4d (i + k) ++ [' ', '|', ' '] ++ ls.get ⟨k, h⟩
  | [], _, k, h => absurd h (by simp)
  | p :: rest, i, 0, _ => by simp [numberLines]
  | p :: rest, i, k + 1, h => by
    have hr : k < rest.length := by
      simpa using Nat.lt_of_succ_lt_succ h
    have := numberLines_get rest (i + 1) k hr
    simpa [numberLines, Nat.add_assoc, Nat.add_comm 1 k] using this

theorem pySplitlines_format_code (content filename : String) :
    pySplitlines (format_code content filename).data =
      numberLines 1 (pySplitlines content.data) := by
  show splitlinesGo (List.intercalate ['\n'] (numberLines 1 (pySplitlines content.data))) [] false
      = numberLines 1 (pySplitlines content.data)
  cases hls : pySplitlines content.data with
  | nil => simp [numberLines, List.intercalate, List.intersperse, splitlinesGo]
  | cons p t =>
    apply splitlinesGo_intercalate
    · simp [numberLines]
    · intro q hq
      refine numberLines_free 1 (p :: t) ?_ q hq
      intro x hx
      rw [← hls] at hx
      exact splitlinesGo_lines_free content.data [] false (by simp) x hx

/-- C2: for text content with N lines, `format_code` produces exactly N
output lines, the i-th being the 1-based index i rendered right-aligned in
a width-4 field, then the separator " | ", then the original i-th line
verbatim, in the original order, with no reflowing or wrapping. -/
theorem claim_format_code_numbering (content filename : String) :
    pySplitlines (format_code content filename).data =
      numberLines 1 (pySplitlines content.data) ∧
    (pySplitlines (format_code content filename).data).length =
      (pySplitlines content.data).length ∧
    ∀ (i : Nat) (h1 : i < (pySplitlines (format_code content filename).data).length)
      (h2 : i < (pySplitlines content.data).length),
      (pySplitlines (format_code content filename).data).get ⟨i, h1⟩ =
        pyFormat4d (i + 1) ++ [' ', '|', ' '] ++ (pySplitlines content.data).get ⟨i, h2⟩ := by
  have hmain := pySplitlines_format_code content filename
  refine ⟨hmain, by rw [hmain, numberLines_length], ?_⟩
  intro i h1 h2
  rw [List.get_of_eq hmain ⟨i, h1⟩]
  have := numberLines_get (pySplitlines content.data) 1 i h2
  simpa [Nat.add_comm 1 i] using this

theorem claim_format_code_numbering_witness :
    1 < (pySplitlines (format_code "ab\ncd" "f").data).length ∧
    1 < (pySplitlines "ab\ncd".data).length ∧
    (pySplitlines (format_code "ab\ncd" "f").data).get ⟨1, by decide⟩ =
      pyFormat4d 2 ++ [' ', '|', ' '] ++ (pySplitlines "ab\ncd".data).get ⟨1, by decide⟩ :=
  ⟨by decide, by decide,
    (claim_format_code_numbering "ab\ncd" "f").2.2 1 (by decide) (by decide)⟩

/-! ### Lemmas about the filter -/

theorem should_include_excluded {isFile : Bool} {parts : List String}
    (h : ∃ c ∈ parts, c ∈ EXCLUDE_DIRS) : should_include isFile parts = false := by
  unfold should_include
  rw [if_pos]
  rcases h with ⟨c, hc, hce⟩
  rw [List.any_eq_true]
  refine ⟨c, hc, ?_⟩
  show EXCLUDE_DIRS.elem c = true
  exact List.elem_iff.2 hce

theorem should_include_true_no_excluded {isFile : Bool} {parts : List String}
    (h : should_include isFile parts = true) : ∀ c ∈ parts, c ∉ EXCLUDE_DIRS := by
  intro c hc hce
  rw [should_include_excluded ⟨c, hc, hce⟩] at h
  cases h

theorem should_include_dir_true {parts : List String}
    (h : ∀ c ∈ parts, c ∉ EXCLUDE_DIRS) : should_include false parts = true := by
  unfold should_include
  rw [if_neg, if_neg (by simp)]
  rw [List.any_eq_true]
  rintro ⟨c, hc, hce⟩
  exact h c hc (List.elem_iff.1 hce)

/-- C4: for a file path with no excluded component, `should_include`
returns true exactly when the lower-cased extension of the final component
(leading dot included) is in the allowed set; files with no extension, or
an extension outside the set, are excluded. -/
theorem claim_file_extension_filter (parts : List String)
    (h : ∀ c ∈ parts, c ∉ EXCLUDE_DIRS) :
    (should_include true parts = true ↔
      extOfName (parts.getLastD "") ∈ VALID_EXTENSIONS) ∧
    (pySplitextExt (parts.getLastD "").data = [] → should_include true parts = false) := by
  have hany : parts.any (fun part => EXCLUDE_DIRS.contains part) = false := by
    rw [List.any_eq_false]
    intro c hc hcon
    exact h c hc (List.elem_iff.1 hcon)
  constructor
  · unfold should_include
    rw [if_neg (by rw [hany]; simp), if_pos rfl]
    unfold extAllowed
    show VALID_EXTENSIONS.elem (extOfName (parts.getLastD "")) = true ↔ _
    exact List.elem_iff
  · intro hno
    unfold should_include
    rw [if_neg (by rw [hany]; simp), if_pos rfl]
    unfold extAllowed extOfName
    rw [hno]
    decide

theorem claim_file_extension_filter_witness :
    (∀ c ∈ ["src", "notes.txt"], c ∉ EXCLUDE_DIRS) ∧
    (should_include true ["src", "notes.txt"] = true ↔
      extOfName ((["src", "notes.txt"] : List String).getLastD "") ∈ VALID_EXTENSIONS) ∧
    (pySplitextExt ((["src", "notes.txt"] : List String).getLastD "").data = [] →
      should_include true ["src", "notes.txt"] = false) :=
  ⟨by decide, claim_file_extension_filter ["src", "notes.txt"] (by decide)⟩

/-- C10: a path with no excluded component that is not a regular file is
included by every variant of the filter regardless of its extension,
because the extension test only runs behind the `os.path.isfile` check. -/
theorem claim_nonfile_included :
    (∀ parts : List String, (∀ c ∈ parts, c ∉ EXCLUDE_DIRS) →
      should_include false parts = true) ∧
    (∀ p : List Char,
      (∀ part ∈ splitOnChar '/' (pyNormpath p), String.mk part ∉ EXCLUDE_DIRS) →
      should_include_string false p = true) ∧
    (∀ p : List Char,
      (∀ part ∈ splitOnChar '/' p, String.mk part ∉ EXCLUDE_DIRS) →
      appStructure.should_include_string false p = true) := by
  refine ⟨fun parts h => should_include_dir_true h, ?_, ?_⟩
  · intro p h
    unfold should_include_string
    rw [if_neg, if_neg (by simp)]
    rw [List.any_eq_true]
    rintro ⟨part, hp, hcon⟩
    exact h part hp (List.elem_iff.1 hcon)
  · intro p h
    unfold appStructure.should_include_string
    rw [if_neg, if_neg (by simp)]
    rw [List.any_eq_true]
    rintro ⟨excl, hexcl, hcon⟩
    have hmem : excl.data ∈ splitOnChar '/' p := List.elem_iff.1 hcon
    have := h excl.data hmem
    apply this
    show { data := excl.data } ∈ EXCLUDE_DIRS
    cases excl
    exact hexcl

theorem claim_nonfile_included_witness :
    (∀ c ∈ ["assets", "broken.png"], c ∉ EXCLUDE_DIRS) ∧
    should_include false ["assets", "broken.png"] = true ∧
    should_include_string false "assets/broken.png".data = true ∧
    appStructure.should_include_string false "assets/broken.png".data = true :=
  ⟨by decide,
    claim_nonfile_included.1 ["assets", "broken.png"] (by decide),
    claim_nonfile_included.2.1 "assets/broken.png".data (by decide),
    claim_nonfile_included.2.2 "assets/broken.png".data (by decide)⟩

/-! ### No file under an excluded directory reaches any output -/

mutual
theorem contentsWalkT_no_excl :
    ∀ (rootParts ps : List String) (t : FSTree),
      ∀ b ∈ contentsWalkT rootParts ps t, ∀ c ∈ b.relPath, c ∉ EXCLUDE_DIRS
  | rootParts, ps, .node _ dirs files => by
    intro b hb c hc
    rw [contentsWalkT] at hb
    rcases List.mem_append.1 hb with h1 | h2
    · unfold contentFileBlocks at h1
      rcases List.mem_map.1 h1 with ⟨f, hf, rfl⟩
      have hf2 : f ∈ keptFiles ps files :=
        ((List.perm_insertionSort fileLe _).mem_iff).1 hf
      have hinc : should_include f.isFile (ps ++ [f.name]) = true :=
        (List.mem_filter.1 hf2).2
      exact should_include_true_no_excluded hinc c (List.mem_of_mem_drop hc)
    · exact contentsWalkF_no_excl rootParts ps (keptDirs ps dirs) b h2 c hc
termination_by rootParts ps t => sizeOf t
decreasing_by exact sizeOf_keptDirs_lt

theorem contentsWalkF_no_excl :
    ∀ (rootParts ps : List String) (ds : List FSTree),
      ∀ b ∈ contentsWalkF rootParts ps ds, ∀ c ∈ b.relPath, c ∉ EXCLUDE_DIRS
  | _, _, [] => by
    intro b hb
    rw [contentsWalkF] at hb
    simp at hb
  | rootParts, ps, d :: ds => by
    intro b hb c hc
    rw [contentsWalkF] at hb
    rcases List.mem_append.1 hb with h1 | h2
    · exact contentsWalkT_no_excl rootParts (ps ++ [d.name]) d b h1 c hc
    · exact contentsWalkF_no_excl rootParts ps ds b h2 c hc
termination_by rootParts ps ds => sizeOf ds
decreasing_by
  · exact sizeOf_head_lt_cons
  · exact sizeOf_tail_lt_cons
end

mutual
theorem structureFilePathsT_no_excl :
    ∀ (ps : List String) (t : FSTree),
      ∀ p ∈ structureFilePathsT ps t, ∀ c ∈ p, c ∉ EXCLUDE_DIRS
  | ps, .node _ dirs files => by
    intro p hp c hc
    rw [structureFilePathsT] at hp
    rcases List.mem_append.1 hp with h1 | h2
    · rcases List.mem_map.1 h1 with ⟨f, hf, rfl⟩
      have hinc : should_include f.isFile (ps ++ [f.name]) = true :=
        (List.mem_filter.1 hf).2
      exact should_include_true_no_excluded hinc c hc
    · exact structureFilePathsF_no_excl ps (keptDirs ps dirs) p h2 c hc
termination_by ps t => sizeOf t
decreasing_by exact sizeOf_keptDirs_lt

theorem structureFilePathsF_no_excl :
    ∀ (ps : List String) (ds : List FSTree),
      ∀ p ∈ structureFilePathsF ps ds, ∀ c ∈ p, c ∉ EXCLUDE_DIRS
  | _, [] => by
    intro p hp
    rw [structureFilePathsF] at hp
    simp at hp
  | ps, d :: ds => by
    intro p hp c hc
    rw [structureFilePathsF] at hp
    rcases List.mem_append.1 hp with h1 | h2
    · exact structureFilePathsT_no_excl (ps ++ [d.name]) d p h1 c hc
    · exact structureFilePathsF_no_excl ps ds p h2 c hc
termination_by ps ds => sizeOf ds
decreasing_by
  · exact sizeOf_head_lt_cons
  · exact sizeOf_tail_lt_cons
end

mutual
theorem extTallyFilesT_no_excl :
    ∀ (ps : List String) (t : FSTree),
      ∀ p ∈ extTallyFilesT ps t, ∀ c ∈ p, c ∉ EXCLUDE_DIRS
  | ps, .node _ dirs files => by
    intro p hp c hc
    rw [extTallyFilesT] at hp
    rcases List.mem_append.1 hp with h1 | h2
    · rcases List.mem_map.1 h1 with ⟨f, hf, rfl⟩
      have hinc : should_include f.isFile (ps ++ [f.name]) = true :=
        (List.mem_filter.1 hf).2
      exact should_include_true_no_excluded hinc c hc
    · exact extTallyFilesF_no_excl ps dirs p h2 c hc
termination_by ps t => sizeOf t
decreasing_by exact sizeOf_dirs_lt_node

theorem extTallyFilesF_no_excl :
    ∀ (ps : List String) (ds : List FSTree),
      ∀ p ∈ extTallyFilesF ps ds, ∀ c ∈ p, c ∉ EXCLUDE_DIRS
  | _, [] => by
    intro p hp
    rw [extTallyFilesF] at hp
    simp at hp
  | ps, d :: ds => by
    intro p hp c hc
    rw [extTallyFilesF] at hp
    rcases List.mem_append.1 hp with h1 | h2
    · exact extTallyFilesT_no_excl (ps ++ [d.name]) d p h1 c hc
    · exact extTallyFilesF_no_excl ps ds p h2 c hc
termination_by ps ds => sizeOf ds
decreasing_by
  · exact sizeOf_head_lt_cons
  · exact sizeOf_tail_lt_cons
end

/-- C1: `should_include` rejects any path having an excluded name as a
component, and since all three passes filter with it, no file whose path
passes through an excluded directory appears in the structure file labels,
the content blocks, or the summary's extension tally. -/
theorem claim_excluded_dirs_pruned :
    (∀ (isFile : Bool) (parts : List String),
      (∃ c ∈ parts, c ∈ EXCLUDE_DIRS) → should_include isFile parts = false) ∧
    (∀ (rootParts : List String) (t : FSTree),
      ∀ p ∈ structureFilePathsT rootParts t, ∀ c ∈ p, c ∉ EXCLUDE_DIRS) ∧
    (∀ (rootParts : List String) (t : FSTree),
      ∀ b ∈ (generate_file_contents rootParts t).1, ∀ c ∈ b.relPath, c ∉ EXCLUDE_DIRS) ∧
    (∀ (rootParts : List String) (t : FSTree),
      ∀ p ∈ extTallyFilesT rootParts t, ∀ c ∈ p, c ∉ EXCLUDE_DIRS) :=
  ⟨fun _ _ h => should_include_excluded h,
    fun rootParts t => structureFilePathsT_no_excl rootParts t,
    fun rootParts t => contentsWalkT_no_excl rootParts rootParts t,
    fun rootParts t => extTallyFilesT_no_excl rootParts t⟩

theorem claim_excluded_dirs_pruned_witness :
    (∃ c ∈ ["src", "node_modules", "pkg", "index.js"], c ∈ EXCLUDE_DIRS) ∧
    should_include true ["src", "node_modules", "pkg", "index.js"] = false :=
  ⟨by decide,
    claim_excluded_dirs_pruned.1 true ["src", "node_modules", "pkg", "index.js"] (by decide)⟩

/-! ### The pruned content count equals the unpruned summary tally (C6) -/

theorem should_include_dir_false {parts : List String}
    (h : should_include false parts = false) : ∃ c ∈ parts, c ∈ EXCLUDE_DIRS := by
  by_contra hno
  rw [should_include_dir_true] at h
  · cases h
  · intro c hc hce
    exact hno ⟨c, hc, hce⟩

mutual
theorem extTallyFilesT_nil_of_excluded :
    ∀ (ps : List String) (t : FSTree), (∃ c ∈ ps, c ∈ EXCLUDE_DIRS) →
      extTallyFilesT ps t = []
  | ps, .node _ dirs files, h => by
    rw [extTallyFilesT]
    have hkept : keptFiles ps files = [] := by
      rw [keptFiles, List.filter_eq_nil_iff]
      intro f _
      rcases h with ⟨c, hc, hce⟩
      simp [@should_include_excluded f.isFile (ps ++ [f.name])
        ⟨c, List.mem_append_left _ hc, hce⟩]
    rw [hkept, extTallyFilesF_nil_of_excluded ps dirs h]
    rfl
termination_by ps t _ => sizeOf t
decreasing_by exact sizeOf_dirs_lt_node

theorem extTallyFilesF_nil_of_excluded :
    ∀ (ps : List String) (ds : List FSTree), (∃ c ∈ ps, c ∈ EXCLUDE_DIRS) →
      extTallyFilesF ps ds = []
  | _, [], _ => by rw [extTallyFilesF]
  | ps, d :: ds, h => by
    rw [extTallyFilesF]
    rcases h with ⟨c, hc, hce⟩
    rw [extTallyFilesT_nil_of_excluded (ps ++ [d.name]) d
        ⟨c, List.mem_append_left _ hc, hce⟩,
      extTallyFilesF_nil_of_excluded ps ds ⟨c, hc, hce⟩]
    rfl
termination_by ps ds _ => sizeOf ds
decreasing_by
  · exact sizeOf_head_lt_cons
  · exact sizeOf_tail_lt_cons
end

mutual
theorem contentsWalkT_length_tally :
    ∀ (rootParts ps : List String) (t : FSTree),
      (contentsWalkT rootParts ps t).length = (extTallyFilesT ps t).length
  | rootParts, ps, .node _ dirs files => by
    rw [contentsWalkT, extTallyFilesT, List.length_append, List.length_append]
    have h1 : (contentFileBlocks rootParts ps files).length =
        ((keptFiles ps files).map (fun f => ps ++ [f.name])).length := by
      rw [contentFileBlocks, List.length_map, List.length_map,
        List.length_insertionSort]
    rw [h1, contentsWalkF_length_tally rootParts ps dirs]
termination_by rootParts ps t => sizeOf t
decreasing_by exact sizeOf_dirs_lt_node

theorem contentsWalkF_length_tally :
    ∀ (rootParts ps : List String) (ds : List FSTree),
      (contentsWalkF rootParts ps (keptDirs ps ds)).length = (extTallyFilesF ps ds).length
  | _, ps, [] => by
    rw [show keptDirs ps [] = [] from rfl, contentsWalkF, extTallyFilesF]
    rfl
  | rootParts, ps, d :: ds => by
    rw [extTallyFilesF, List.length_append]
    by_cases hd : should_include false (ps ++ [d.name]) = true
    · have hk : keptDirs ps (d :: ds) = d :: keptDirs ps ds := by
        rw [keptDirs, List.filter_cons, if_pos (by simp [hd])]
        rfl
      rw [hk, contentsWalkF, List.length_append,
        contentsWalkT_length_tally rootParts (ps ++ [d.name]) d,
        contentsWalkF_length_tally rootParts ps ds]
    · have hk : keptDirs ps (d :: ds) = keptDirs ps ds := by
        rw [keptDirs, List.filter_cons, if_neg (by simpa using hd)]
        rfl
      have hkill : extTallyFilesT (ps ++ [d.name]) d = [] :=
        extTallyFilesT_nil_of_excluded _ _
          (should_include_dir_false (by simpa using hd))
      rw [hk, hkill, contentsWalkF_length_tally rootParts ps ds]
      simp
termination_by rootParts ps ds => sizeOf ds
decreasing_by
  all_goals first
    | exact sizeOf_head_lt_cons
    | exact sizeOf_tail_lt_cons
end

/-! ### The tally dictionary: keys, counts and totals -/

theorem tallyInsert_keys_nodup {acc : List (String × Nat)} {e : String}
    (h : (acc.map (fun p => p.1)).Nodup) :
    ((tallyInsert acc e).map (fun p => p.1)).Nodup := by
  unfold tallyInsert
  split
  · have : ((acc.map (fun p => if p.1 = e then (p.1, p.2 + 1) else p)).map (fun p => p.1)) =
        acc.map (fun p => p.1) := by
      rw [List.map_map]
      apply List.map_congr_left
      intro p _
      by_cases hp : p.1 = e <;> simp [hp]
    rw [this]
    exact h
  · next hany =>
    rw [List.map_append]
    simp only [List.map_cons, List.map_nil]
    rw [List.nodup_append]
    refine ⟨h, by simp, ?_⟩
    intro x hx
    simp only [List.mem_singleton]
    rcases List.mem_map.1 hx with ⟨p, hp, rfl⟩
    intro hpe
    exact hany (List.any_eq_true.2 ⟨p, hp, by simp [hpe]⟩)

theorem sum_map_increment :
    ∀ (l : List (String × Nat)) (e : String), (l.map (fun p => p.1)).Nodup →
      l.any (fun p => p.1 = e) = true →
      ((l.map (fun p => if p.1 = e then (p.1, p.2 + 1) else p)).map (fun p => p.2)).sum =
        (l.map (fun p => p.2)).sum + 1
  | [], e, _, hany => by simp at hany
  | (k, v) :: rest, e, hnodup, hany => by
    have hmap := hnodup
    simp only [List.map_cons] at hmap
    have hn := List.nodup_cons.1 hmap
    by_cases hk : k = e
    · subst hk
      have hrest : rest.map (fun p => if p.1 = k then (p.1, p.2 + 1) else p) = rest := by
        calc rest.map (fun p => if p.1 = k then (p.1, p.2 + 1) else p)
            = rest.map id := List.map_congr_left (fun p hp => by
              have hpn : p.1 ≠ k := fun hpe => hn.1 (List.mem_map.2 ⟨p, hp, hpe⟩)
              simp [hpn])
          _ = rest := List.map_id rest
      simp [hrest]
      omega
    · have hany2 : rest.any (fun p => p.1 = e) = true := by
        rcases List.any_eq_true.1 hany with ⟨p, hp, hpe⟩
        rcases List.mem_cons.1 hp with rfl | hp2
        · simp at hpe
          exact absurd hpe hk
        · exact List.any_eq_true.2 ⟨p, hp2, hpe⟩
      simp only [List.map_cons, if_neg hk, List.sum_cons]
      rw [sum_map_increment rest e hn.2 hany2]
      omega

theorem tallyInsert_sum {acc : List (String × Nat)} {e : String}
    (h : (acc.map (fun p => p.1)).Nodup) :
    ((tallyInsert acc e).map (fun p => p.2)).sum = (acc.map (fun p => p.2)).sum + 1 := by
  unfold tallyInsert
  split
  · next hany =>
    exact sum_map_increment acc e h (by simpa using hany)
  · simp

theorem foldl_tallyInsert_sum :
    ∀ (xs : List String) (acc : List (String × Nat)), (acc.map (fun p => p.1)).Nodup →
      ((xs.foldl tallyInsert acc).map (fun p => p.2)).sum =
        (acc.map (fun p => p.2)).sum + xs.length
  | [], _, _ => by simp
  | e :: xs, acc, h => by
    rw [List.foldl_cons,
      foldl_tallyInsert_sum xs (tallyInsert acc e) (tallyInsert_keys_nodup h),
      tallyInsert_sum h, List.length_cons]
    omega

/-- C6: for an unchanged tree, the file count of the content pass equals
the summary's reported total, equals the number of files the summary's
(unpruned, per-file-filtered) extension tally collects, and equals the sum
of the per-extension counts in the frequency table. -/
theorem claim_counts_agree (rootParts : List String) (t : FSTree) :
    (generate_project_summary rootParts t (generate_file_contents rootParts t).2).total_files =
      (generate_file_contents rootParts t).2 ∧
    (generate_file_contents rootParts t).2 = (extTallyFilesT rootParts t).length ∧
    ((ext_counts rootParts t).map (fun p => p.2)).sum = (extTallyFilesT rootParts t).length := by
  refine ⟨rfl, contentsWalkT_length_tally rootParts rootParts t, ?_⟩
  rw [ext_counts, foldl_tallyInsert_sum _ [] (by simp)]
  simp

/-! ### Lookup in the tally dictionary (C7) -/

theorem tallyInsert_cons_ne {k : String} {v : Nat} {rest : List (String × Nat)} {e : String}
    (hk : k ≠ e) : tallyInsert ((k, v) :: rest) e = (k, v) :: tallyInsert rest e := by
  unfold tallyInsert
  have hhead : (decide ((k, v).1 = e) || rest.any (fun p => p.1 = e)) =
      rest.any (fun p => p.1 = e) := by
    simp [hk]
  rw [List.any_cons, hhead]
  by_cases han : rest.any (fun p => p.1 = e) = true
  · rw [if_pos han, if_pos han, List.map_cons, if_neg hk]
  · rw [if_neg han, if_neg han, List.cons_append]

theorem tallyInsert_cons_eq {k : String} {v : Nat} {rest : List (String × Nat)}
    (h : ∀ p ∈ rest, p.1 ≠ k) : tallyInsert ((k, v) :: rest) k = (k, v + 1) :: rest := by
  unfold tallyInsert
  rw [if_pos (by simp), List.map_cons, if_pos (by simp)]
  have : rest.map (fun p => if p.1 = k then (p.1, p.2 + 1) else p) = rest := by
    calc rest.map (fun p => if p.1 = k then (p.1, p.2 + 1) else p)
        = rest.map id := List.map_congr_left (fun p hp => by simp [h p hp])
      _ = rest := List.map_id rest
  rw [this]

theorem lookup_cons_beq_true {k a : String} {b : Nat} {es : List (String × Nat)}
    (h : (a == k) = true) : ((k, b) :: es).lookup a = some b := by
  rw [List.lookup_cons, h]

theorem lookup_cons_beq_false {k a : String} {b : Nat} {es : List (String × Nat)}
    (h : (a == k) = false) : ((k, b) :: es).lookup a = es.lookup a := by
  rw [List.lookup_cons, h]

theorem tallyInsert_lookup :
    ∀ (acc : List (String × Nat)) (e x : String), (acc.map (fun p => p.1)).Nodup →
      (tallyInsert acc e).lookup x =
        if x = e then some ((acc.lookup e).getD 0 + 1) else acc.lookup x
  | [], e, x, _ => by
    show List.lookup x ([] ++ [(e, 1)]) = _
    by_cases hx : x = e
    · rw [List.nil_append, lookup_cons_beq_true (by simp [hx]), if_pos hx]
      rfl
    · rw [List.nil_append, lookup_cons_beq_false (by simp [hx]), if_neg hx]
  | (k, v) :: rest, e, x, hnodup => by
    have hmap := hnodup
    simp only [List.map_cons] at hmap
    have hn := List.nodup_cons.1 hmap
    by_cases hk : k = e
    · subst hk
      rw [tallyInsert_cons_eq (fun p hp hpe => hn.1 (List.mem_map.2 ⟨p, hp, hpe⟩))]
      by_cases hx : x = k
      · rw [lookup_cons_beq_true (by simp [hx]), if_pos hx,
          lookup_cons_beq_true (by simp [hx])]
        rfl
      · rw [lookup_cons_beq_false (by simp [hx]), if_neg hx,
          lookup_cons_beq_false (by simp [hx])]
    · rw [tallyInsert_cons_ne hk]
      have hek : (e == k) = false := by
        simp only [beq_eq_false_iff_ne, ne_eq]
        exact fun h => hk h.symm
      by_cases hx : x = k
      · have hxk : (x == k) = true := by simp [hx]
        have hxe : ¬ x = e := fun h => hk (hx.symm.trans h)
        rw [lookup_cons_beq_true hxk, if_neg hxe, lookup_cons_beq_true hxk]
      · have hxk : (x == k) = false := by simp [hx]
        rw [lookup_cons_beq_false hxk, lookup_cons_beq_false hek,
          lookup_cons_beq_false hxk, tallyInsert_lookup rest e x hn.2]

theorem foldl_tallyInsert_lookup :
    ∀ (xs : List String) (acc : List (String × Nat)), (acc.map (fun p => p.1)).Nodup →
      ∀ x, (xs.foldl tallyInsert acc).lookup x =
        if (acc.lookup x).isSome ∨ x ∈ xs then
          some ((acc.lookup x).getD 0 + xs.count x) else none
  | [], acc, _ => by
    intro x
    cases hl : acc.lookup x <;> simp [hl]
  | e :: xs, acc, h => by
    intro x
    rw [List.foldl_cons,
      foldl_tallyInsert_lookup xs (tallyInsert acc e) (tallyInsert_keys_nodup h) x,
      tallyInsert_lookup acc e x h]
    by_cases hx : x = e
    · subst hx
      rw [if_pos rfl]
      simp only [Option.isSome_some, Option.getD_some, List.count_cons_self,
        List.mem_cons, true_or, or_true, if_pos trivial]
      congr 1
      omega
    · rw [if_neg hx]
      rw [List.count_cons_of_ne hx]
      have hiff : ((acc.lookup x).isSome = true ∨ x ∈ e :: xs) ↔
          ((acc.lookup x).isSome = true ∨ x ∈ xs) := by
        constructor
        · rintro (hm | hm)
          · exact Or.inl hm
          · rcases List.mem_cons.1 hm with rfl | hm2
            · exact absurd rfl hx
            · exact Or.inr hm2
        · rintro (hm | hm)
          · exact Or.inl hm
          · exact Or.inr (List.mem_cons_of_mem e hm)
      rw [if_congr hiff rfl rfl]

theorem lookup_some_mem :
    ∀ (l : List (String × Nat)) (x : String) (v : Nat), l.lookup x = some v → (x, v) ∈ l
  | [], x, v, h => by simp at h
  | (k, b) :: rest, x, v, h => by
    by_cases hk : (x == k) = true
    · rw [lookup_cons_beq_true hk] at h
      injection h with h
      subst h
      have hkx : x = k := by simpa using hk
      subst hkx
      exact List.mem_cons_self _ _
    · rw [lookup_cons_beq_false (by simpa using hk)] at h
      exact List.mem_cons_of_mem _ (lookup_some_mem rest x v h)

/-! ### Totality and transitivity of the lexicographic order -/

theorem lexLe_cons_iff {x y : Char} {xs ys : List Char} :
    lexLe (x :: xs) (y :: ys) = true ↔ x < y ∨ (x = y ∧ lexLe xs ys = true) := by
  rw [lexLe]
  by_cases h1 : x < y
  · simp [h1]
  · by_cases h2 : x = y <;> simp [h1, h2]

theorem lexLe_total : ∀ (a b : List Char), lexLe a b = true ∨ lexLe b a = true
  | [], _ => Or.inl rfl
  | _ :: _, [] => Or.inr rfl
  | x :: xs, y :: ys => by
    rcases lt_trichotomy x y with h | h | h
    · exact Or.inl (lexLe_cons_iff.2 (Or.inl h))
    · rcases lexLe_total xs ys with h2 | h2
      · exact Or.inl (lexLe_cons_iff.2 (Or.inr ⟨h, h2⟩))
      · exact Or.inr (lexLe_cons_iff.2 (Or.inr ⟨h.symm, h2⟩))
    · exact Or.inr (lexLe_cons_iff.2 (Or.inl h))

theorem lexLe_trans : ∀ (a b c : List Char),
    lexLe a b = true → lexLe b c = true → lexLe a c = true
  | [], _, _, _, _ => rfl
  | _ :: _, [], _, h, _ => by simp [lexLe] at h
  | _ :: _, _ :: _, [], _, h => by simp [lexLe] at h
  | x :: xs, y :: ys, z :: zs, h1, h2 => by
    rcases lexLe_cons_iff.1 h1 with hxy | ⟨rfl, hxy⟩
    · rcases lexLe_cons_iff.1 h2 with hyz | ⟨rfl, hyz⟩
      · exact lexLe_cons_iff.2 (Or.inl (lt_trans hxy hyz))
      · exact lexLe_cons_iff.2 (Or.inl hxy)
    · rcases lexLe_cons_iff.1 h2 with hyz | ⟨rfl, hyz⟩
      · exact lexLe_cons_iff.2 (Or.inl hyz)
      · exact lexLe_cons_iff.2 (Or.inr ⟨rfl, lexLe_trans xs ys zs hxy hyz⟩)

instance : IsTotal (String × Nat) pairLe :=
  ⟨fun a b => lexLe_total a.1.data b.1.data⟩

instance : IsTrans (String × Nat) pairLe :=
  ⟨fun a b c => lexLe_trans a.1.data b.1.data c.1.data⟩

instance : IsTotal FSFile fileLe :=
  ⟨fun a b => lexLe_total a.name.data b.name.data⟩

instance : IsTrans FSFile fileLe :=
  ⟨fun a b c => lexLe_trans a.name.data b.name.data c.name.data⟩

/-- C7: the summary's frequency table maps each distinct extension seen
among the tallied files to its occurrence count, shows the empty extension
as an explicit "No Extension" row, and its data rows are sorted by
extension name ascending. -/
theorem claim_extension_table (rootParts : List String) (t : FSTree) :
    (∀ e : String,
      (ext_counts rootParts t).lookup e =
        if e ∈ (extTallyFilesT rootParts t).map (fun p => extOfName (p.getLastD "")) then
          some (((extTallyFilesT rootParts t).map
            (fun p => extOfName (p.getLastD ""))).count e)
        else none) ∧
    List.Sorted pairLe (List.insertionSort pairLe (ext_counts rootParts t)) ∧
    (List.insertionSort pairLe (ext_counts rootParts t)).Perm (ext_counts rootParts t) ∧
    file_type_data rootParts t =
      ("File Type", "Count") ::
        (List.insertionSort pairLe (ext_counts rootParts t)).map
          (fun p => ((if p.1 = "" then "No Extension" else p.1), String.mk (natDecimal p.2))) ∧
    ("" ∈ (extTallyFilesT rootParts t).map (fun p => extOfName (p.getLastD "")) →
      ("No Extension",
        String.mk (natDecimal (((extTallyFilesT rootParts t).map
          (fun p => extOfName (p.getLastD ""))).count ""))) ∈ file_type_data rootParts t) := by
  have hlook : ∀ e : String,
      (ext_counts rootParts t).lookup e =
        if e ∈ (extTallyFilesT rootParts t).map (fun p => extOfName (p.getLastD "")) then
          some (((extTallyFilesT rootParts t).map
            (fun p => extOfName (p.getLastD ""))).count e)
        else none := by
    intro e
    rw [ext_counts, foldl_tallyInsert_lookup _ [] (by simp) e]
    simp
  refine ⟨hlook, List.sorted_insertionSort pairLe _, List.perm_insertionSort pairLe _,
    rfl, ?_⟩
  intro hmem
  have hl := hlook ""
  rw [if_pos hmem] at hl
  have hmem2 := lookup_some_mem _ _ _ hl
  have hmem3 : ("",
      ((extTallyFilesT rootParts t).map (fun p => extOfName (p.getLastD ""))).count "") ∈
      List.insertionSort pairLe (ext_counts rootParts t) :=
    ((List.perm_insertionSort pairLe _).mem_iff).2 hmem2
  rw [file_type_data]
  refine List.mem_cons_of_mem _ ?_
  refine List.mem_map.2 ⟨_, hmem3, ?_⟩
  simp

theorem claim_extension_table_witness :
    "" ∈ (extTallyFilesT ["r"]
        (.node "r" [] [⟨"Makefile", false, .ok "m"⟩, ⟨"a.js", true, .ok "x"⟩])).map
        (fun p => extOfName (p.getLastD "")) ∧
    ("No Extension",
      String.mk (natDecimal (((extTallyFilesT ["r"]
        (.node "r" [] [⟨"Makefile", false, .ok "m"⟩, ⟨"a.js", true, .ok "x"⟩])).map
        (fun p => extOfName (p.getLastD ""))).count ""))) ∈
      file_type_data ["r"] (.node "r" [] [⟨"Makefile", false, .ok "m"⟩, ⟨"a.js", true, .ok "x"⟩]) := by
  have hm : "" ∈ (extTallyFilesT ["r"]
      (.node "r" [] [⟨"Makefile", false, .ok "m"⟩, ⟨"a.js", true, .ok "x"⟩])).map
      (fun p => extOfName (p.getLastD "")) := by
    simp [extTallyFilesT, extTallyFilesF, keptFiles, should_include, extAllowed,
      extOfName, EXCLUDE_DIRS, VALID_EXTENSIONS, pyToLower, pySplitextExt,
      afterLastSep, lastDotIdx, splitOnChar, List.filter_cons]
  exact ⟨hm, (claim_extension_table ["r"]
    (.node "r" [] [⟨"Makefile", false, .ok "m"⟩, ⟨"a.js", true, .ok "x"⟩])).2.2.2.2 hm⟩

/-! ### Directory labels in the structure section (C8) -/

/-- Whether a structure item is a directory label. -/
def StructItem.isDir : StructItem → Bool
  | .dirItem _ _ => true
  | _ => false

/-- Whether a structure item is a file label. -/
def StructItem.isFileLabel : StructItem → Bool
  | .fileItem _ _ => true
  | _ => false

mutual
theorem structureWalkT_dir_count :
    ∀ (rootParts ps : List String) (t : FSTree),
      (structureWalkT rootParts ps t).countP StructItem.isDir = dirCountWalkT ps t
  | rootParts, ps, .node _ dirs files => by
    rw [structureWalkT, dirCountWalkT, List.countP_cons, List.countP_append]
    have hfiles : ((keptFiles ps files).map
        (fun f => StructItem.fileItem (ps.length - rootParts.length + 1) f.name)).countP
          StructItem.isDir = 0 := by
      rw [List.countP_eq_zero]
      intro a ha
      rcases List.mem_map.1 ha with ⟨f, _, rfl⟩
      simp [StructItem.isDir]
    rw [hfiles, structureWalkF_dir_count rootParts ps (keptDirs ps dirs)]
    simp [StructItem.isDir]
    omega
termination_by rootParts ps t => sizeOf t
decreasing_by exact sizeOf_keptDirs_lt

theorem structureWalkF_dir_count :
    ∀ (rootParts ps : List String) (ds : List FSTree),
      (structureWalkF rootParts ps ds).countP StructItem.isDir = dirCountWalkF ps ds
  | _, _, [] => by rw [structureWalkF, dirCountWalkF]; rfl
  | rootParts, ps, d :: ds => by
    rw [structureWalkF, dirCountWalkF, List.countP_append,
      structureWalkT_dir_count rootParts (ps ++ [d.name]) d,
      structureWalkF_dir_count rootParts ps ds]
termination_by rootParts ps ds => sizeOf ds
decreasing_by
  · exact sizeOf_head_lt_cons
  · exact sizeOf_tail_lt_cons
end

mutual
theorem structureWalkT_file_count :
    ∀ (rootParts ps : List String) (t : FSTree),
      (structureWalkT rootParts ps t).countP StructItem.isFileLabel =
        (structureFilePathsT ps t).length
  | rootParts, ps, .node _ dirs files => by
    rw [structureWalkT, structureFilePathsT, List.countP_cons, List.countP_append,
      List.length_append]
    have hfiles : ((keptFiles ps files).map
        (fun f => StructItem.fileItem (ps.length - rootParts.length + 1) f.name)).countP
          StructItem.isFileLabel =
        ((keptFiles ps files).map (fun f => ps ++ [f.name])).length := by
      rw [List.length_map, ← List.length_map (keptFiles ps files)
        (fun f => StructItem.fileItem (ps.length - rootParts.length + 1) f.name)]
      rw [List.countP_eq_length]
      intro a ha
      rcases List.mem_map.1 ha with ⟨f, _, rfl⟩
      simp [StructItem.isFileLabel]
    rw [hfiles, structureWalkF_file_count rootParts ps (keptDirs ps dirs)]
    simp [StructItem.isDir, StructItem.isFileLabel]
termination_by rootParts ps t => sizeOf t
decreasing_by exact sizeOf_keptDirs_lt

theorem structureWalkF_file_count :
    ∀ (rootParts ps : List String) (ds : List FSTree),
      (structureWalkF rootParts ps ds).countP StructItem.isFileLabel =
        (structureFilePathsF ps ds).length
  | _, _, [] => by rw [structureWalkF, structureFilePathsF]; rfl
  | rootParts, ps, d :: ds => by
    rw [structureWalkF, structureFilePathsF, List.countP_append, List.length_append,
      structureWalkT_file_count rootParts (ps ++ [d.name]) d,
      structureWalkF_file_count rootParts ps ds]
termination_by rootParts ps ds => sizeOf ds
decreasing_by
  · exact sizeOf_head_lt_cons
  · exact sizeOf_tail_lt_cons
end

/-- C8: the walk yields every visited directory even when it has no
surviving files or subdirectories, so an empty non-excluded directory
still gets a structure label, and the number of directory labels in the
structure section equals the summary's total directory count. -/
theorem claim_empty_dirs_listed :
    (∀ (rootParts ps : List String) (n : String) (dirs : List FSTree)
        (files : List FSFile),
      ∃ rest, structureWalkT rootParts ps (.node n dirs files) =
        StructItem.dirItem (ps.length - rootParts.length)
          ((if ps = rootParts then rootParts.getLastD "" else ps.getLastD "") ++ "/") ::
          rest) ∧
    (∀ (rootParts ps : List String) (n : String),
      structureWalkT rootParts ps (.node n [] []) =
        [StructItem.dirItem (ps.length - rootParts.length)
          ((if ps = rootParts then rootParts.getLastD "" else ps.getLastD "") ++ "/")]) ∧
    (∀ (rootParts : List String) (t : FSTree) (fc : Nat),
      (generate_directory_structure rootParts t).countP StructItem.isDir =
        (generate_project_summary rootParts t fc).dir_count) := by
  refine ⟨?_, ?_, ?_⟩
  · intro rootParts ps n dirs files
    rw [structureWalkT]
    exact ⟨_, rfl⟩
  · intro rootParts ps n
    rw [structureWalkT]
    rw [show keptFiles ps ([] : List FSFile) = [] from rfl,
      show keptDirs ps ([] : List FSTree) = [] from rfl, structureWalkF]
    rfl
  · intro rootParts t fc
    show (StructItem.header "Project Directory Structure" ::
      structureWalkT rootParts rootParts t).countP StructItem.isDir = dirCountWalkT rootParts t
    rw [List.countP_cons, structureWalkT_dir_count rootParts rootParts t]
    simp [StructItem.isDir]

/-! ### The two filter implementations compared (C9) -/

theorem exclusion_any_swap (parts : List (List Char)) :
    (parts.any (fun part => EXCLUDE_DIRS.contains (String.mk part))) =
      (EXCLUDE_DIRS.any (fun excl => parts.contains excl.data)) := by
  rw [Bool.eq_iff_iff]
  constructor
  · intro h
    rcases List.any_eq_true.1 h with ⟨part, hp, hc⟩
    have hmem : String.mk part ∈ EXCLUDE_DIRS := List.elem_iff.1 hc
    refine List.any_eq_true.2 ⟨String.mk part, hmem, ?_⟩
    show parts.elem (String.mk part).data = true
    exact List.elem_iff.2 hp
  · intro h
    rcases List.any_eq_true.1 h with ⟨excl, he, hc⟩
    have hmem : excl.data ∈ parts := List.elem_iff.1 hc
    refine List.any_eq_true.2 ⟨excl.data, hmem, ?_⟩
    show EXCLUDE_DIRS.elem (String.mk excl.data) = true
    refine List.elem_iff.2 ?_
    have hd : String.mk excl.data = excl := by cases excl; rfl
    rw [hd]
    exact he

theorem valid_extensions_split :
    VALID_EXTENSIONS = appStructure.VALID_EXTENSIONS ++ [".geojson"] := rfl

theorem ext_sets_agree {e : String} (he : e ≠ ".geojson") :
    VALID_EXTENSIONS.contains e = appStructure.VALID_EXTENSIONS.contains e := by
  rw [Bool.eq_iff_iff]
  constructor
  · intro h
    have hmem : e ∈ VALID_EXTENSIONS := List.elem_iff.1 h
    rw [valid_extensions_split] at hmem
    rcases List.mem_append.1 hmem with h1 | h2
    · exact List.elem_iff.2 h1
    · exact absurd (List.mem_singleton.1 h2) he
  · intro h
    refine List.elem_iff.2 ?_
    rw [valid_extensions_split]
    exact List.mem_append_left _ (List.elem_iff.1 h)

/-- C9 counterexample: the claim's description of the differences is wrong
at concrete inputs: `.scss`, `.jsx` and `.vue` are all present in
appStructure.py's allowed set (only `.geojson` is omitted), and the two
filters also disagree on a path whose extension (`.js`) both sets allow,
because only app.py normalises the path before splitting. -/
theorem claim_filters_difference_counterexample :
    ".scss" ∈ appStructure.VALID_EXTENSIONS ∧
    ".jsx" ∈ appStructure.VALID_EXTENSIONS ∧
    ".vue" ∈ appStructure.VALID_EXTENSIONS ∧
    ".geojson" ∈ VALID_EXTENSIONS ∧
    ".geojson" ∉ appStructure.VALID_EXTENSIONS ∧
    should_include_string true "a/node_modules/../b.js".data = true ∧
    appStructure.should_include_string true "a/node_modules/../b.js".data = false ∧
    extOfName "b.js" ∈ VALID_EXTENSIONS ∧
    extOfName "b.js" ∈ appStructure.VALID_EXTENSIONS := by
  refine ⟨by decide, by decide, by decide, by decide, by decide, by decide, by decide,
    by decide, by decide⟩

/-- C9 (amended): the two `should_include` implementations differ in that
app.py normalises the path before splitting while appStructure.py splits
the raw path, and appStructure.py's allowed-extension set omits only
`.geojson`; on any path whose normalised component split equals its raw
split, the two filters agree except where `.geojson` decides the result. -/
theorem claim_filters_difference (isFile : Bool) (p : List Char)
    (hsplit : splitOnChar '/' (pyNormpath p) = splitOnChar '/' p)
    (hext : String.mk (pyToLower (pySplitextExt p)) ≠ ".geojson") :
    should_include_string isFile p = appStructure.should_include_string isFile p := by
  unfold should_include_string appStructure.should_include_string
  dsimp only
  rw [hsplit, exclusion_any_swap (splitOnChar '/' p)]
  by_cases hX : (EXCLUDE_DIRS.any fun excl => (splitOnChar '/' p).contains excl.data) = true
  · rw [if_pos hX, if_pos hX]
  · rw [if_neg hX, if_neg hX]
    cases isFile
    · rfl
    · rw [if_pos rfl, if_pos rfl]
      exact ext_sets_agree hext

theorem claim_filters_difference_witness :
    splitOnChar '/' (pyNormpath "src/app.scss".data) = splitOnChar '/' "src/app.scss".data ∧
    String.mk (pyToLower (pySplitextExt "src/app.scss".data)) ≠ ".geojson" ∧
    should_include_string true "src/app.scss".data =
      appStructure.should_include_string true "src/app.scss".data :=
  ⟨by decide, by decide,
    claim_filters_difference true "src/app.scss".data (by decide) (by decide)⟩

/-! ### Counting machinery for uniqueness of emitted files (C5, C3) -/

theorem drop_append_le {α : Type} :
    ∀ (k : Nat) (xs ys : List α), k ≤ xs.length →
      (xs ++ ys).drop k = xs.drop k ++ ys
  | 0, _, _, _ => by simp
  | k + 1, [], _, h => by simp at h
  | k + 1, x :: xs, ys, h => by
    simp only [List.cons_append, List.drop_succ_cons]
    exact drop_append_le k xs ys (by simpa using h)

theorem distinctb_nodup : ∀ (l : List String), distinctb l = true → l.Nodup
  | [], _ => List.nodup_nil
  | x :: xs, h => by
    rw [distinctb, Bool.and_eq_true] at h
    refine List.nodup_cons.2 ⟨?_, distinctb_nodup xs h.2⟩
    intro hmem
    have := h.1
    rw [Bool.not_eq_eq_eq_not, Bool.not_true] at this
    have hcon : xs.contains x = true := List.elem_iff.2 hmem
    rw [hcon] at this
    cases this

theorem wfb_node {n : String} {dirs : List FSTree} {files : List FSFile}
    (h : FSTree.wfb (.node n dirs files) = true) :
    (dirs.map FSTree.name ++ files.map FSFile.name).Nodup ∧ FSTree.wfbF dirs = true := by
  rw [FSTree.wfb, Bool.and_eq_true] at h
  exact ⟨distinctb_nodup _ h.1, h.2⟩

theorem wfbF_mem :
    ∀ (ds : List FSTree) (d : FSTree), FSTree.wfbF ds = true → d ∈ ds →
      FSTree.wfb d = true
  | [], d, _, hd => absurd hd (List.not_mem_nil d)
  | e :: ds, d, h, hd => by
    rw [FSTree.wfbF, Bool.and_eq_true] at h
    rcases List.mem_cons.1 hd with rfl | hd2
    · exact h.1
    · exact wfbF_mem ds d h.2 hd2

theorem count_map_eq_countP {α β : Type} [BEq β] :
    ∀ (l : List α) (h : α → β) (x : β),
      (l.map h).count x = l.countP (fun a => h a == x)
  | [], _, _ => rfl
  | a :: l, h, x => by
    rw [List.map_cons, List.count_cons, List.countP_cons,
      count_map_eq_countP l h x]

theorem sum_map_zero {α : Type} :
    ∀ (l : List α) (g : α → Nat), (∀ a ∈ l, g a = 0) → (l.map g).sum = 0
  | [], _, _ => rfl
  | a :: l, g, h => by
    rw [List.map_cons, List.sum_cons, h a (List.mem_cons_self a l),
      sum_map_zero l g (fun b hb => h b (List.mem_cons_of_mem a hb))]

theorem sum_eq_one_of_unique {α : Type} :
    ∀ (l : List α) (key : α → String) (g : α → Nat) (a : α) (k : String),
      a ∈ l → (l.map key).Nodup → key a = k →
      (∀ b ∈ l, key b ≠ k → g b = 0) → g a = 1 →
      (l.map g).sum = 1
  | [], _, _, a, _, ha, _, _, _, _ => absurd ha (List.not_mem_nil a)
  | c :: cs, key, g, a, k, ha, hnodup, hak, hzero, hone => by
    have hmap := hnodup
    simp only [List.map_cons] at hmap
    have hn := List.nodup_cons.1 hmap
    rw [List.map_cons, List.sum_cons]
    rcases List.mem_cons.1 ha with rfl | ha2
    · rw [hone, sum_map_zero cs g]
      intro b hb
      refine hzero b (List.mem_cons_of_mem a hb) ?_
      intro hbk
      exact hn.1 (List.mem_map.2 ⟨b, hb, hbk.trans hak.symm⟩)
    · have hck : key c ≠ k := by
        intro hc
        exact hn.1 (List.mem_map.2 ⟨a, ha2, hak.trans hc.symm⟩)
      rw [hzero c (List.mem_cons_self c cs) hck,
        sum_eq_one_of_unique cs key g a k ha2 hn.2 hak
          (fun b hb hbk => hzero b (List.mem_cons_of_mem c hb) hbk) hone]

theorem FSTree.sizeOf_lt_of_mem_keptDirs {d : FSTree} {ps : List String} {n : String}
    {dirs : List FSTree} {files : List FSFile} (hd : d ∈ keptDirs ps dirs) :
    sizeOf d < sizeOf (FSTree.node n dirs files) := by
  have := List.sizeOf_lt_of_mem (List.mem_of_mem_filter hd)
  simp only [FSTree.node.sizeOf_spec]
  omega

theorem contentsWalkF_decomp :
    ∀ (rootParts ps : List String) (ds : List FSTree) (b : ContentBlock),
      b ∈ contentsWalkF rootParts ps ds →
      ∃ d ∈ ds, b ∈ contentsWalkT rootParts (ps ++ [d.name]) d
  | _, _, [], b, hb => by
    rw [contentsWalkF] at hb
    simp at hb
  | rootParts, ps, d :: ds, b, hb => by
    rw [contentsWalkF] at hb
    rcases List.mem_append.1 hb with h | h
    · exact ⟨d, List.mem_cons_self _ _, h⟩
    · rcases contentsWalkF_decomp rootParts ps ds b h with ⟨d2, hd2, hb2⟩
      exact ⟨d2, List.mem_cons_of_mem _ hd2, hb2⟩

theorem contentsWalkF_of_mem :
    ∀ (rootParts ps : List String) (ds : List FSTree) (d : FSTree) (b : ContentBlock),
      d ∈ ds → b ∈ contentsWalkT rootParts (ps ++ [d.name]) d →
      b ∈ contentsWalkF rootParts ps ds
  | _, _, [], d, _, hd, _ => absurd hd (List.not_mem_nil d)
  | rootParts, ps, e :: ds, d, b, hd, hb => by
    rw [contentsWalkF]
    rcases List.mem_cons.1 hd with rfl | hd2
    · exact List.mem_append_left _ hb
    · exact List.mem_append_right _ (contentsWalkF_of_mem rootParts ps ds d b hd2 hb)

theorem contentsWalkF_count :
    ∀ (rootParts ps : List String) (ds : List FSTree) (x : List String),
      ((contentsWalkF rootParts ps ds).map ContentBlock.relPath).count x =
        (ds.map (fun d =>
          ((contentsWalkT rootParts (ps ++ [d.name]) d).map ContentBlock.relPath).count x)).sum
  | _, _, [], _ => by rw [contentsWalkF]; rfl
  | rootParts, ps, d :: ds, x => by
    rw [contentsWalkF, List.map_append, List.count_append, List.map_cons, List.sum_cons,
      contentsWalkF_count rootParts ps ds x]

theorem contentsWalkT_relPath_prefix :
    ∀ (t : FSTree) (rootParts ps : List String) (b : ContentBlock),
      rootParts.length ≤ ps.length → b ∈ contentsWalkT rootParts ps t →
      ∃ q, b.relPath = ps.drop rootParts.length ++ q ∧ q ≠ []
  | .node n dirs files, rootParts, ps, b, hlen, hb => by
    rw [contentsWalkT] at hb
    rcases List.mem_append.1 hb with h1 | h2
    · unfold contentFileBlocks at h1
      rcases List.mem_map.1 h1 with ⟨f, _, rfl⟩
      exact ⟨[f.name], by simp [drop_append_le rootParts.length ps [f.name] hlen], by simp⟩
    · rcases contentsWalkF_decomp rootParts ps (keptDirs ps dirs) b h2 with ⟨d, hd, hb2⟩
      rcases contentsWalkT_relPath_prefix d rootParts (ps ++ [d.name]) b
          (by simp; omega) hb2 with ⟨q, hq, _⟩
      refine ⟨d.name :: q, ?_, by simp⟩
      rw [hq, drop_append_le rootParts.length ps [d.name] hlen, List.append_assoc]
      rfl
termination_by t => sizeOf t
decreasing_by exact FSTree.sizeOf_lt_of_mem_keptDirs hd

theorem keptFiles_names_nodup {ps : List String} {n : String} {dirs : List FSTree}
    {files : List FSFile} (hwf : FSTree.wfb (.node n dirs files) = true) :
    ((keptFiles ps files).map FSFile.name).Nodup :=
  List.Nodup.sublist (List.Sublist.map _ (List.filter_sublist files))
    ((wfb_node hwf).1.of_append_right)

theorem keptDirs_names_nodup {ps : List String} {n : String} {dirs : List FSTree}
    {files : List FSFile} (hwf : FSTree.wfb (.node n dirs files) = true) :
    ((keptDirs ps dirs).map FSTree.name).Nodup :=
  List.Nodup.sublist (List.Sublist.map _ (List.filter_sublist dirs))
    ((wfb_node hwf).1.of_append_left)

theorem contentFileBlocks_relPaths {rootParts ps : List String} {files : List FSFile}
    (hlen : rootParts.length ≤ ps.length) :
    (contentFileBlocks rootParts ps files).map ContentBlock.relPath =
      (List.insertionSort fileLe (keptFiles ps files)).map
        (fun g => ps.drop rootParts.length ++ [g.name]) := by
  unfold contentFileBlocks
  rw [List.map_map]
  apply List.map_congr_left
  intro g _
  simp [drop_append_le rootParts.length ps [g.name] hlen]

theorem count_append_singleton_map {base : List String} {fname : String} :
    ∀ (l : List FSFile),
      (l.map (fun g => base ++ [g.name])).count (base ++ [fname]) =
        (l.map FSFile.name).count fname
  | [] => rfl
  | a :: l => by
    rw [List.map_cons, List.count_cons, List.map_cons, List.count_cons,
      count_append_singleton_map l]
    congr 1
    by_cases h : a.name = fname
    · simp [h]
    · simp [h]

theorem contentsWalkT_count_one :
    ∀ (dirPath rootParts ps : List String) (t d : FSTree) (f : FSFile),
      rootParts.length ≤ ps.length →
      FSTree.wfb t = true →
      t.findDir dirPath = some d →
      f ∈ d.files →
      should_include f.isFile (ps ++ dirPath ++ [f.name]) = true →
      ((contentsWalkT rootParts ps t).map ContentBlock.relPath).count
        (ps.drop rootParts.length ++ (dirPath ++ [f.name])) = 1
  | [], rootParts, ps, t, d, f, hlen, hwf, hdir, hf, hinc => by
    cases t with
    | node nm dirs files =>
      rw [FSTree.findDir] at hdir
      injection hdir with hdir
      subst hdir
      simp only [FSTree.files] at hf
      simp only [List.nil_append]
      rw [contentsWalkT, List.map_append, List.count_append]
      have hbase : ((contentFileBlocks rootParts ps files).map ContentBlock.relPath).count
          (ps.drop rootParts.length ++ [f.name]) = 1 := by
        rw [contentFileBlocks_relPaths hlen, count_append_singleton_map,
          ((List.perm_insertionSort fileLe (keptFiles ps files)).map
            FSFile.name).count_eq]
        have hfk : f ∈ keptFiles ps files := by
          rw [keptFiles]
          refine List.mem_filter.2 ⟨hf, ?_⟩
          simpa using hinc
        exact List.count_eq_one_of_mem (keptFiles_names_nodup hwf)
          (List.mem_map.2 ⟨f, hfk, rfl⟩)
      have hrest : ((contentsWalkF rootParts ps (keptDirs ps dirs)).map
          ContentBlock.relPath).count (ps.drop rootParts.length ++ [f.name]) = 0 := by
        rw [List.count_eq_zero]
        intro hmem
        rcases List.mem_map.1 hmem with ⟨b, hb, hbp⟩
        rcases contentsWalkF_decomp rootParts ps (keptDirs ps dirs) b hb with ⟨d2, _, hb2⟩
        rcases contentsWalkT_relPath_prefix d2 rootParts (ps ++ [d2.name]) b
            (by simp; omega) hb2 with ⟨q, hq, hqne⟩
        rw [hq, drop_append_le rootParts.length ps [d2.name] hlen,
          List.append_assoc] at hbp
        have hcan := List.append_cancel_left hbp
        injection hcan with h1 h2
        exact hqne h2
      rw [hbase, hrest]
  | n :: rest, rootParts, ps, t, d, f, hlen, hwf, hdir, hf, hinc => by
    cases t with
    | node nm dirs files =>
      rw [FSTree.findDir] at hdir
      simp only [FSTree.dirs] at hdir
      cases hfind : dirs.find? (fun d2 => d2.name = n) with
      | none =>
        rw [hfind] at hdir
        exact absurd hdir (by simp)
      | some d1 =>
        rw [hfind] at hdir
        dsimp only at hdir
        have hd1mem : d1 ∈ dirs := List.mem_of_find?_eq_some hfind
        have hd1name : d1.name = n := by
          have := List.find?_some hfind
          simpa using this
        have hnoexcl := should_include_true_no_excluded hinc
        have hd1kept : d1 ∈ keptDirs ps dirs := by
          rw [keptDirs]
          refine List.mem_filter.2 ⟨hd1mem, ?_⟩
          rw [hd1name]
          refine should_include_dir_true ?_
          intro c hc
          rcases List.mem_append.1 hc with h1 | h2
          · exact hnoexcl c (List.mem_append_left _ (List.mem_append_left _ h1))
          · rw [List.mem_singleton.1 h2]
            exact hnoexcl n (List.mem_append_left _
              (List.mem_append_right _ (List.mem_cons_self _ _)))
        rw [contentsWalkT, List.map_append, List.count_append]
        have htarget : ps.drop rootParts.length ++ ((n :: rest) ++ [f.name]) =
            ps.drop rootParts.length ++ (n :: (rest ++ [f.name])) := by simp
        have hfb : ((contentFileBlocks rootParts ps files).map ContentBlock.relPath).count
            (ps.drop rootParts.length ++ ((n :: rest) ++ [f.name])) = 0 := by
          rw [List.count_eq_zero]
          intro hmem
          rw [contentFileBlocks_relPaths hlen] at hmem
          rcases List.mem_map.1 hmem with ⟨g, _, hgp⟩
          rw [htarget] at hgp
          have hcan := List.append_cancel_left hgp
          injection hcan with h1 h2
          exact absurd h2.symm (by simp)
        have hwfrec : ((contentsWalkF rootParts ps (keptDirs ps dirs)).map
            ContentBlock.relPath).count
            (ps.drop rootParts.length ++ ((n :: rest) ++ [f.name])) = 1 := by
          rw [contentsWalkF_count]
          refine sum_eq_one_of_unique (keptDirs ps dirs) FSTree.name _ d1 n hd1kept
            (keptDirs_names_nodup hwf) hd1name ?_ ?_
          · intro d2 _ hd2n
            rw [List.count_eq_zero]
            intro hmem
            rcases List.mem_map.1 hmem with ⟨b, hb, hbp⟩
            rcases contentsWalkT_relPath_prefix d2 rootParts (ps ++ [d2.name]) b
                (by simp; omega) hb with ⟨q, hq, _⟩
            rw [hq, drop_append_le rootParts.length ps [d2.name] hlen,
              List.append_assoc, htarget] at hbp
            have hcan := List.append_cancel_left hbp
            injection hcan with h1 h2
            exact hd2n h1
          · rw [hd1name]
            have hwf1 : FSTree.wfb d1 = true := wfbF_mem dirs d1 (wfb_node hwf).2 hd1mem
            have hinc2 : should_include f.isFile ((ps ++ [n]) ++ rest ++ [f.name]) = true := by
              simpa [List.append_assoc] using hinc
            have := contentsWalkT_count_one rest rootParts (ps ++ [n]) d1 d f
              (by simp; omega) hwf1 hdir hf hinc2
            rw [drop_append_le rootParts.length ps [n] hlen] at this
            simpa [List.append_assoc] using this
        rw [hfb, hwfrec]

theorem FSTree.sizeOf_lt_of_mem_dirs {d : FSTree} {n : String} {dirs : List FSTree}
    {files : List FSFile} (h : d ∈ dirs) : sizeOf d < sizeOf (FSTree.node n dirs files) := by
  have := List.sizeOf_lt_of_mem h
  simp only [FSTree.node.sizeOf_spec]
  omega

theorem contentsWalkT_block_mem :
    ∀ (dirPath rootParts ps : List String) (t d : FSTree) (f : FSFile),
      rootParts.length ≤ ps.length →
      t.findDir dirPath = some d →
      f ∈ d.files →
      should_include f.isFile (ps ++ dirPath ++ [f.name]) = true →
      ContentBlock.mk (ps.drop rootParts.length ++ (dirPath ++ [f.name]))
        (format_code (readContent f) f.name) ∈ contentsWalkT rootParts ps t
  | [], rootParts, ps, t, d, f, hlen, hdir, hf, hinc => by
    cases t with
    | node nm dirs files =>
      rw [FSTree.findDir] at hdir
      injection hdir with hdir
      subst hdir
      simp only [FSTree.files] at hf
      rw [contentsWalkT]
      refine List.mem_append_left _ ?_
      unfold contentFileBlocks
      have hfk : f ∈ keptFiles ps files := by
        rw [keptFiles]
        exact List.mem_filter.2 ⟨hf, by simpa using hinc⟩
      have hfs : f ∈ List.insertionSort fileLe (keptFiles ps files) :=
        ((List.perm_insertionSort fileLe _).mem_iff).2 hfk
      refine List.mem_map.2 ⟨f, hfs, ?_⟩
      simp [drop_append_le rootParts.length ps [f.name] hlen]
  | n :: rest, rootParts, ps, t, d, f, hlen, hdir, hf, hinc => by
    cases t with
    | node nm dirs files =>
      rw [FSTree.findDir] at hdir
      simp only [FSTree.dirs] at hdir
      cases hfind : dirs.find? (fun d2 => d2.name = n) with
      | none =>
        rw [hfind] at hdir
        exact absurd hdir (by simp)
      | some d1 =>
        rw [hfind] at hdir
        dsimp only at hdir
        have hd1mem : d1 ∈ dirs := List.mem_of_find?_eq_some hfind
        have hd1name : d1.name = n := by
          have := List.find?_some hfind
          simpa using this
        have hnoexcl := should_include_true_no_excluded hinc
        have hd1kept : d1 ∈ keptDirs ps dirs := by
          rw [keptDirs]
          refine List.mem_filter.2 ⟨hd1mem, ?_⟩
          rw [hd1name]
          refine should_include_dir_true ?_
          intro c hc
          rcases List.mem_append.1 hc with h1 | h2
          · exact hnoexcl c (List.mem_append_left _ (List.mem_append_left _ h1))
          · rw [List.mem_singleton.1 h2]
            exact hnoexcl n (List.mem_append_left _
              (List.mem_append_right _ (List.mem_cons_self _ _)))
        rw [contentsWalkT]
        refine List.mem_append_right _ ?_
        refine contentsWalkF_of_mem rootParts ps (keptDirs ps dirs) d1 _ hd1kept ?_
        rw [hd1name]
        have hinc2 : should_include f.isFile ((ps ++ [n]) ++ rest ++ [f.name]) = true := by
          simpa [List.append_assoc] using hinc
        have := contentsWalkT_block_mem rest rootParts (ps ++ [n]) d1 d f
          (by simp; omega) hdir hf hinc2
        rw [drop_append_le rootParts.length ps [n] hlen] at this
        simpa [List.append_assoc] using this

/-! ### Uniqueness in the summary tally (unpruned walk) -/

theorem extTallyFilesF_decomp :
    ∀ (ps : List String) (ds : List FSTree) (p : List String),
      p ∈ extTallyFilesF ps ds → ∃ d ∈ ds, p ∈ extTallyFilesT (ps ++ [d.name]) d
  | _, [], p, hp => by
    rw [extTallyFilesF] at hp
    simp at hp
  | ps, d :: ds, p, hp => by
    rw [extTallyFilesF] at hp
    rcases List.mem_append.1 hp with h | h
    · exact ⟨d, List.mem_cons_self _ _, h⟩
    · rcases extTallyFilesF_decomp ps ds p h with ⟨d2, hd2, hp2⟩
      exact ⟨d2, List.mem_cons_of_mem _ hd2, hp2⟩

theorem extTallyFilesF_count :
    ∀ (ps : List String) (ds : List FSTree) (x : List String),
      (extTallyFilesF ps ds).count x =
        (ds.map (fun d => (extTallyFilesT (ps ++ [d.name]) d).count x)).sum
  | _, [], _ => by rw [extTallyFilesF]; rfl
  | ps, d :: ds, x => by
    rw [extTallyFilesF, List.count_append, List.map_cons, List.sum_cons,
      extTallyFilesF_count ps ds x]

theorem extTallyFilesT_mem_shape :
    ∀ (t : FSTree) (ps : List String) (p : List String),
      p ∈ extTallyFilesT ps t → ∃ q, p = ps ++ q ∧ q ≠ []
  | .node n dirs files, ps, p, hp => by
    rw [extTallyFilesT] at hp
    rcases List.mem_append.1 hp with h1 | h2
    · rcases List.mem_map.1 h1 with ⟨f, _, rfl⟩
      exact ⟨[f.name], rfl, by simp⟩
    · rcases extTallyFilesF_decomp ps dirs p h2 with ⟨d2, hd2, hp2⟩
      rcases extTallyFilesT_mem_shape d2 (ps ++ [d2.name]) p hp2 with ⟨q, hq, _⟩
      exact ⟨d2.name :: q, by rw [hq, List.append_assoc]; rfl, by simp⟩
termination_by t => sizeOf t
decreasing_by exact FSTree.sizeOf_lt_of_mem_dirs hd2

theorem extTallyFilesT_count_one :
    ∀ (dirPath ps : List String) (t d : FSTree) (f : FSFile),
      FSTree.wfb t = true →
      t.findDir dirPath = some d →
      f ∈ d.files →
      should_include f.isFile (ps ++ (dirPath ++ [f.name])) = true →
      (extTallyFilesT ps t).count (ps ++ (dirPath ++ [f.name])) = 1
  | [], ps, t, d, f, hwf, hdir, hf, hinc => by
    cases t with
    | node nm dirs files =>
      rw [FSTree.findDir] at hdir
      injection hdir with hdir
      subst hdir
      simp only [FSTree.files] at hf
      simp only [List.nil_append]
      rw [extTallyFilesT, List.count_append]
      have hbase : (((keptFiles ps files).map (fun f => ps ++ [f.name]))).count
          (ps ++ [f.name]) = 1 := by
        rw [count_append_singleton_map]
        have hfk : f ∈ keptFiles ps files := by
          rw [keptFiles]
          refine List.mem_filter.2 ⟨hf, ?_⟩
          simpa using hinc
        exact List.count_eq_one_of_mem (keptFiles_names_nodup hwf)
          (List.mem_map.2 ⟨f, hfk, rfl⟩)
      have hrest : (extTallyFilesF ps dirs).count (ps ++ [f.name]) = 0 := by
        rw [List.count_eq_zero]
        intro hmem
        rcases extTallyFilesF_decomp ps dirs _ hmem with ⟨d2, _, hp2⟩
        rcases extTallyFilesT_mem_shape d2 (ps ++ [d2.name]) _ hp2 with ⟨q, hq, hqne⟩
        rw [List.append_assoc] at hq
        have hcan := List.append_cancel_left hq.symm
        injection hcan with h1 h2
        exact hqne h2
      rw [hbase, hrest]
  | n :: rest, ps, t, d, f, hwf, hdir, hf, hinc => by
    cases t with
    | node nm dirs files =>
      rw [FSTree.findDir] at hdir
      simp only [FSTree.dirs] at hdir
      cases hfind : dirs.find? (fun d2 => d2.name = n) with
      | none =>
        rw [hfind] at hdir
        exact absurd hdir (by simp)
      | some d1 =>
        rw [hfind] at hdir
        dsimp only at hdir
        have hd1mem : d1 ∈ dirs := List.mem_of_find?_eq_some hfind
        have hd1name : d1.name = n := by
          have := List.find?_some hfind
          simpa using this
        rw [extTallyFilesT, List.count_append]
        have htarget : ps ++ ((n :: rest) ++ [f.name]) =
            ps ++ (n :: (rest ++ [f.name])) := by simp
        have hfb : (((keptFiles ps files).map (fun f => ps ++ [f.name]))).count
            (ps ++ ((n :: rest) ++ [f.name])) = 0 := by
          rw [List.count_eq_zero]
          intro hmem
          rcases List.mem_map.1 hmem with ⟨g, _, hgp⟩
          rw [htarget] at hgp
          have hcan := List.append_cancel_left hgp
          injection hcan with h1 h2
          exact absurd h2.symm (by simp)
        have hsub : (extTallyFilesF ps dirs).count (ps ++ ((n :: rest) ++ [f.name])) = 1 := by
          rw [extTallyFilesF_count]
          refine sum_eq_one_of_unique dirs FSTree.name _ d1 n hd1mem
            ((wfb_node hwf).1.of_append_left) hd1name ?_ ?_
          · intro d2 _ hd2n
            rw [List.count_eq_zero]
            intro hmem
            rcases extTallyFilesT_mem_shape d2 (ps ++ [d2.name]) _ hmem with ⟨q, hq, _⟩
            rw [List.append_assoc, htarget] at hq
            have hcan := List.append_cancel_left hq.symm
            injection hcan with h1 h2
            exact hd2n h1
          · rw [hd1name]
            have hwf1 : FSTree.wfb d1 = true := wfbF_mem dirs d1 (wfb_node hwf).2 hd1mem
            have hinc2 : should_include f.isFile ((ps ++ [n]) ++ (rest ++ [f.name])) = true := by
              simpa [List.append_assoc] using hinc
            have := extTallyFilesT_count_one rest (ps ++ [n]) d1 d f hwf1 hdir hf hinc2
            simpa [List.append_assoc] using this
        rw [hfb, hsub]

/-! ### Sortedness of the per-directory content blocks -/

theorem contentFileBlocks_sorted (rootParts ps : List String) (files : List FSFile)
    (hlen : rootParts.length ≤ ps.length) :
    List.Sorted (fun a b : ContentBlock =>
      lexLe (a.relPath.getLastD "").data (b.relPath.getLastD "").data = true)
      (contentFileBlocks rootParts ps files) := by
  unfold contentFileBlocks
  refine List.Pairwise.map _ ?_ (List.sorted_insertionSort fileLe (keptFiles ps files))
  intro a b hab
  have ha : ((ps ++ [a.name]).drop rootParts.length).getLastD "" = a.name := by
    rw [drop_append_le rootParts.length ps [a.name] hlen, List.getLastD_concat]
  have hb : ((ps ++ [b.name]).drop rootParts.length).getLastD "" = b.name := by
    rw [drop_append_le rootParts.length ps [b.name] hlen, List.getLastD_concat]
  show lexLe (((ps ++ [a.name]).drop rootParts.length).getLastD "").data
      (((ps ++ [b.name]).drop rootParts.length).getLastD "").data = true
  rw [ha, hb]
  exact hab

theorem should_include_file_true {parts : List String}
    (h1 : ∀ c ∈ parts, c ∉ EXCLUDE_DIRS)
    (h2 : extOfName (parts.getLastD "") ∈ VALID_EXTENSIONS) :
    should_include true parts = true := by
  unfold should_include
  have hany : parts.any (fun part => EXCLUDE_DIRS.contains part) = false := by
    rw [List.any_eq_false]
    intro c hc hcon
    exact h1 c hc (List.elem_iff.1 hcon)
  rw [if_neg (by rw [hany]; simp), if_pos rfl]
  unfold extAllowed
  exact List.elem_iff.2 h2

/-- C5: an included regular file (allowed extension, not under an excluded
directory) yields exactly one content block and exactly one entry in the
summary's tally, and the blocks of each directory are emitted in
lexicographically sorted file-name order. -/
theorem claim_included_file_once (rootParts : List String) (t : FSTree)
    (dirPath : List String) (d : FSTree) (f : FSFile)
    (hwf : FSTree.wfb t = true)
    (hdir : t.findDir dirPath = some d)
    (hf : f ∈ d.files)
    (hreg : f.isFile = true)
    (hext : extOfName f.name ∈ VALID_EXTENSIONS)
    (hnoexcl : ∀ c ∈ rootParts ++ dirPath ++ [f.name], c ∉ EXCLUDE_DIRS) :
    ((generate_file_contents rootParts t).1.map ContentBlock.relPath).count
      (dirPath ++ [f.name]) = 1 ∧
    (extTallyFilesT rootParts t).count (rootParts ++ dirPath ++ [f.name]) = 1 ∧
    ∀ (ps2 : List String) (files2 : List FSFile), rootParts.length ≤ ps2.length →
      List.Sorted (fun a b : ContentBlock =>
        lexLe (a.relPath.getLastD "").data (b.relPath.getLastD "").data = true)
        (contentFileBlocks rootParts ps2 files2) := by
  have hlast : (rootParts ++ dirPath ++ [f.name]).getLastD "" = f.name :=
    List.getLastD_concat _ _ _
  have hinc : should_include f.isFile (rootParts ++ dirPath ++ [f.name]) = true := by
    rw [hreg]
    exact should_include_file_true hnoexcl (by rwa [hlast])
  refine ⟨?_, ?_, fun ps2 files2 h => contentFileBlocks_sorted rootParts ps2 files2 h⟩
  · have := contentsWalkT_count_one dirPath rootParts rootParts t d f
      (Nat.le_refl _) hwf hdir hf hinc
    simpa [List.drop_length] using this
  · have := extTallyFilesT_count_one dirPath rootParts t d f hwf hdir hf
      (by simpa [List.append_assoc] using hinc)
    simpa [List.append_assoc] using this

theorem claim_included_file_once_witness :
    FSTree.wfb (.node "r" [.node "src" [] [⟨"b.js", true, .ok "x"⟩, ⟨"a.js", true, .ok "y"⟩]] []) = true ∧
    FSTree.findDir (.node "r" [.node "src" [] [⟨"b.js", true, .ok "x"⟩, ⟨"a.js", true, .ok "y"⟩]] [])
      ["src"] = some (.node "src" [] [⟨"b.js", true, .ok "x"⟩, ⟨"a.js", true, .ok "y"⟩]) ∧
    (⟨"a.js", true, .ok "y"⟩ : FSFile) ∈
      (FSTree.node "src" [] [⟨"b.js", true, .ok "x"⟩, ⟨"a.js", true, .ok "y"⟩]).files ∧
    ((generate_file_contents ["r"]
        (.node "r" [.node "src" [] [⟨"b.js", true, .ok "x"⟩, ⟨"a.js", true, .ok "y"⟩]] [])).1.map
        ContentBlock.relPath).count (["src"] ++ ["a.js"]) = 1 ∧
    (extTallyFilesT ["r"]
        (.node "r" [.node "src" [] [⟨"b.js", true, .ok "x"⟩, ⟨"a.js", true, .ok "y"⟩]] [])).count
      (["r"] ++ ["src"] ++ ["a.js"]) = 1 := by
  have hwf : FSTree.wfb (.node "r" [.node "src" [] [⟨"b.js", true, .ok "x"⟩, ⟨"a.js", true, .ok "y"⟩]] []) = true := by
    simp [FSTree.wfb, FSTree.wfbF, distinctb, FSTree.name]
  have hdir : FSTree.findDir (.node "r" [.node "src" [] [⟨"b.js", true, .ok "x"⟩, ⟨"a.js", true, .ok "y"⟩]] [])
      ["src"] = some (.node "src" [] [⟨"b.js", true, .ok "x"⟩, ⟨"a.js", true, .ok "y"⟩]) := rfl
  have hf : (⟨"a.js", true, .ok "y"⟩ : FSFile) ∈
      (FSTree.node "src" [] [⟨"b.js", true, .ok "x"⟩, ⟨"a.js", true, .ok "y"⟩]).files :=
    List.mem_cons_of_mem _ (List.mem_cons_self _ _)
  have hmain := claim_included_file_once ["r"]
    (.node "r" [.node "src" [] [⟨"b.js", true, .ok "x"⟩, ⟨"a.js", true, .ok "y"⟩]] [])
    ["src"] (.node "src" [] [⟨"b.js", true, .ok "x"⟩, ⟨"a.js", true, .ok "y"⟩])
    ⟨"a.js", true, .ok "y"⟩ hwf hdir hf rfl (by decide) (by decide)
  exact ⟨hwf, hdir, hf, hmain.1, hmain.2.1⟩

/-! ### The read-error placeholder (C3) -/

theorem readContent_error {f : FSFile} {msg : String} (h : f.readResult = .error msg) :
    readContent f = "Error reading file: " ++ msg := by
  unfold readContent
  rw [h]

theorem format_code_single_line (s filename : String)
    (hne : s.data ≠ []) (hfree : ∀ c ∈ s.data, isLineBreak c = false) :
    format_code s filename = String.mk (pyFormat4d 1 ++ [' ', '|', ' '] ++ s.data) := by
  unfold format_code
  have hsplit : pySplitlines s.data = [s.data] := by
    unfold pySplitlines
    have := splitlinesGo_append_free s.data [] [] hfree
    simp only [List.append_nil, List.nil_append] at this
    rw [this, splitlinesGo, if_neg hne]
  rw [hsplit, numberLines, numberLines, intercalate_singleton_eq]

theorem errPrefix_free : ∀ c ∈ ("Error reading file: ").data, isLineBreak c = false := by
  decide

/-- C3: an included walk entry whose read fails yields exactly one content
block whose body is the numbered error placeholder, the run is not
aborted (the remaining blocks are still produced and the block count still
counts this file), and when the error message contains no line break the
placeholder is a single line. -/
theorem claim_read_error_placeholder (rootParts : List String) (t : FSTree)
    (dirPath : List String) (d : FSTree) (f : FSFile) (msg : String)
    (hwf : FSTree.wfb t = true)
    (hdir : t.findDir dirPath = some d)
    (hf : f ∈ d.files)
    (herr : f.readResult = .error msg)
    (hinc : should_include f.isFile (rootParts ++ dirPath ++ [f.name]) = true) :
    ContentBlock.mk (dirPath ++ [f.name])
        (format_code ("Error reading file: " ++ msg) f.name) ∈
      (generate_file_contents rootParts t).1 ∧
    ((generate_file_contents rootParts t).1.map ContentBlock.relPath).count
      (dirPath ++ [f.name]) = 1 ∧
    ((∀ c ∈ msg.data, isLineBreak c = false) →
      format_code ("Error reading file: " ++ msg) f.name =
        String.mk (pyFormat4d 1 ++ [' ', '|', ' '] ++ ("Error reading file: " ++ msg).data)) ∧
    (generate_file_contents rootParts t).2 = (generate_file_contents rootParts t).1.length := by
  refine ⟨?_, ?_, ?_, rfl⟩
  · have := contentsWalkT_block_mem dirPath rootParts rootParts t d f
      (Nat.le_refl _) hdir hf hinc
    rw [readContent_error herr] at this
    simpa [List.drop_length] using this
  · have := contentsWalkT_count_one dirPath rootParts rootParts t d f
      (Nat.le_refl _) hwf hdir hf hinc
    simpa [List.drop_length] using this
  · intro hfree
    refine format_code_single_line _ _ (by simp) ?_
    intro c hc
    rw [show ("Error reading file: " ++ msg).data =
        "Error reading file: ".data ++ msg.data from rfl] at hc
    rcases List.mem_append.1 hc with h1 | h2
    · exact errPrefix_free c h1
    · exact hfree c h2

theorem claim_read_error_placeholder_witness :
    FSTree.wfb (.node "r" [] [⟨"bad.js", true, .error "boom"⟩]) = true ∧
    FSTree.findDir (.node "r" [] [⟨"bad.js", true, .error "boom"⟩]) [] =
      some (.node "r" [] [⟨"bad.js", true, .error "boom"⟩]) ∧
    (⟨"bad.js", true, .error "boom"⟩ : FSFile) ∈
      (FSTree.node "r" [] [⟨"bad.js", true, .error "boom"⟩]).files ∧
    should_include true (["r"] ++ [] ++ ["bad.js"]) = true ∧
    ContentBlock.mk ([] ++ ["bad.js"])
        (format_code ("Error reading file: " ++ "boom") "bad.js") ∈
      (generate_file_contents ["r"] (.node "r" [] [⟨"bad.js", true, .error "boom"⟩])).1 ∧
    format_code ("Error reading file: " ++ "boom") "bad.js" =
      String.mk (pyFormat4d 1 ++ [' ', '|', ' '] ++ ("Error reading file: " ++ "boom").data) := by
  have hwf : FSTree.wfb (.node "r" [] [⟨"bad.js", true, .error "boom"⟩]) = true := by
    simp [FSTree.wfb, FSTree.wfbF, distinctb, FSTree.name]
  have hdir : FSTree.findDir (.node "r" [] [⟨"bad.js", true, .error "boom"⟩]) [] =
      some (.node "r" [] [⟨"bad.js", true, .error "boom"⟩]) := rfl
  have hf : (⟨"bad.js", true, .error "boom"⟩ : FSFile) ∈
      (FSTree.node "r" [] [⟨"bad.js", true, .error "boom"⟩]).files :=
    List.mem_cons_self _ _
  have hmain := claim_read_error_placeholder ["r"]
    (.node "r" [] [⟨"bad.js", true, .error "boom"⟩]) []
    (.node "r" [] [⟨"bad.js", true, .error "boom"⟩])
    ⟨"bad.js", true, .error "boom"⟩ "boom" hwf hdir hf rfl (by decide)
  exact ⟨hwf, hdir, hf, by decide, hmain.1, hmain.2.2.1 (by decide)⟩
